import Mathlib

/-!
Verification of the THREE.Terrain heightmap engine (TypeScript sources
`src/images.ts`, `src/terrain.ts`, `src/weightedBoxBlurGaussian.ts`)
against its natural-language specification.

The embedding is shallow: JS numbers are modelled as exact rationals,
JS `Math.round` as `fun q => ⌊q + 1/2⌋`, the `Uint8ClampedArray` pixel
store as clamping to `[0, 255]`, and `Float64Array`s as lists.  In the
blur code an out-of-bounds typed-array read yields `undefined`, which
poisons the accumulator like NaN; buffers there are lists of `Option ℚ`
with `none` playing the NaN role.  Out-of-bounds typed-array writes are
silently ignored, matching `List.set`.
-/

namespace ThreeTerrain

/-- JS `Math.round`: round half toward positive infinity. -/
def jsRound (q : ℚ) : ℤ := ⌊q + 1/2⌋

/-- Storing an integer into a `Uint8ClampedArray` slot clamps it to `[0, 255]`. -/
def clampByte (z : ℤ) : ℕ := (min 255 (max 0 z)).toNat

/-- RGB channels of one `ImageData` pixel as read by the decoder
(the alpha channel at `pixelIndex + 3` is never read). -/
abbrev Pixel := ℕ × ℕ × ℕ

/-- An RGBA pixel as written by the encoder. -/
abbrev RGBA := ℕ × ℕ × ℕ × ℕ

/-- The options fields consumed by `fromHeightmap` in `src/images.ts`. -/
structure ImageOptions where
  widthSegments : ℕ
  heightSegments : ℕ
  minHeight : ℚ
  maxHeight : ℚ

/-- `src/images.ts` `fromHeightmap`, per-pixel value:
`vert.z = ((data[p] << 16) + (data[p+1] << 8) + data[p+2]) / 0xffffff * spread + options.minHeight`
with `spread = options.maxHeight - options.minHeight`. -/
def decodePixel (p : Pixel) (minHeight maxHeight : ℚ) : ℚ :=
  ((((p.1 <<< 16) + (p.2.1 <<< 8) + p.2.2 : ℕ) : ℚ) / 0xffffff)
    * (maxHeight - minHeight) + minHeight

/-- The value `fromHeightmap` assigns to `verts[i].z`: the decode formula applied
to the RGB triple of the pixel at the same linear index `i`. -/
def decodeAt (px : ℕ → Pixel) (o : ImageOptions) (i : ℕ) : ℚ :=
  decodePixel (px i) o.minHeight o.maxHeight

/-- `src/images.ts` `fromHeightmap`.  The canvas it reads back is
`new OffscreenCanvas(options.widthSegments, options.heightSegments)`, so
`imgdata.width = widthSegments` and `imgdata.height = heightSegments`.
The double loop runs `x < imgdata.width`, `y < imgdata.height` and sets
`verts[x * imgdata.height + y].z` from the pixel at the same linear index
(`pixelIndex = vertIndex * 4`).  `px i` is the RGB triple of the pixel at
linear index `i` of the image data obtained after `drawImage` has rescaled
`options.heightmap` onto that canvas (the rescaling itself is a canvas
primitive outside this repository, so `px` is an arbitrary parameter). -/
def fromHeightmap (verts : List ℚ) (px : ℕ → Pixel) (o : ImageOptions) : List ℚ :=
  (List.range o.widthSegments).foldl (fun vs x =>
    (List.range o.heightSegments).foldl (fun vs2 y =>
      vs2.set (x * o.heightSegments + y)
        (decodeAt px o (x * o.heightSegments + y))) vs) verts

/-- The options fields consumed by `toHeightmap` in `src/images.ts`:
here `minHeight`/`maxHeight` may be left `undefined` (`none`). -/
structure EncodeOptions where
  widthSegments : ℕ
  heightSegments : ℕ
  minHeight : Option ℚ
  maxHeight : Option ℚ

/-- `src/images.ts` `toHeightmap`, max derivation: `max = hasMax ? options.maxHeight
: -Infinity`, then (when some bound is missing) the scan
`if (g[k].z > max2) max2 = g[k].z` over all samples, with `max = max2` only
when `maxHeight` was not supplied.  `⊥` stands for `-Infinity`. -/
def toHeightmapMax (o : Option ℚ) (g : List ℚ) : WithBot ℚ :=
  match o with
  | some m => (m : WithBot ℚ)
  | none =>
    g.foldl (fun (acc : WithBot ℚ) (z : ℚ) =>
      if acc < (z : WithBot ℚ) then (z : WithBot ℚ) else acc) ⊥

/-- `src/images.ts` `toHeightmap`, min derivation: `min = hasMin ? options.minHeight
: Infinity`, scan `if (g[k].z < min2) min2 = g[k].z`.  `⊤` stands for `Infinity`. -/
def toHeightmapMin (o : Option ℚ) (g : List ℚ) : WithTop ℚ :=
  match o with
  | some m => (m : WithTop ℚ)
  | none =>
    g.foldl (fun (acc : WithTop ℚ) (z : ℚ) =>
      if (z : WithTop ℚ) < acc then (z : WithTop ℚ) else acc) ⊤

/-- One encoded byte: `Math.round(((g[i].z - min) / spread) * 255)` stored into a
`Uint8ClampedArray` slot. -/
def toHeightmapPixel (minv maxv z : ℚ) : ℕ :=
  clampByte (jsRound ((z - minv) / (maxv - minv) * 255))

/-- The `min` actually used by the encoder, as a rational.  The `untop' 0`
fallback stands for the `Infinity` that, in the source, can only survive the
scan when `g` is empty and the bound is missing — a case outside every claim. -/
def encodeMin (o : EncodeOptions) (g : List ℚ) : ℚ :=
  (toHeightmapMin o.minHeight g).untop' 0

/-- The `max` actually used by the encoder, as a rational (see `encodeMin`). -/
def encodeMax (o : EncodeOptions) (g : List ℚ) : ℚ :=
  (toHeightmapMax o.maxHeight g).unbot' 0

/-- `src/images.ts` `toHeightmap`.  The canvas is `cols = widthSegments + 1` by
`rows = heightSegments + 1`; the row-major double loop writes pixel
`i = row * cols + col` for every `row < rows`, `col < cols`, i.e. every linear
index below `rows * cols` exactly once, setting R = G = B to the rounded byte
and alpha to 255.  `g` is the list of vertex `z` values (the source indexes
`g[i].z`; callers supply `g.length = rows * cols`). -/
def toHeightmap (g : List ℚ) (o : EncodeOptions) : List RGBA :=
  (List.range ((o.heightSegments + 1) * (o.widthSegments + 1))).map (fun i =>
    (toHeightmapPixel (encodeMin o g) (encodeMax o g) (g.getD i 0),
     toHeightmapPixel (encodeMin o g) (encodeMax o g) (g.getD i 0),
     toHeightmapPixel (encodeMin o g) (encodeMax o g) (g.getD i 0), 255))

/-! ### Generic lemmas about `List.set` and index folds -/

theorem set_getElem? {α : Type} :
    ∀ (l : List α) (i j : ℕ) (a : α),
      (l.set i a)[j]? = if i = j ∧ i < l.length then some a else l[j]? := by
  intro l
  induction l with
  | nil => intro i j a; simp
  | cons hd tl ih =>
    intro i j a
    cases i with
    | zero =>
      cases j with
      | zero => simp
      | succ k => simp
    | succ m =>
      cases j with
      | zero => simp
      | succ k =>
        simp only [List.set_cons_succ, List.getElem?_cons_succ, List.length_cons]
        rw [ih]
        have : (m = k ∧ m < tl.length) ↔ (m + 1 = k + 1 ∧ m + 1 < tl.length + 1) := by
          omega
        by_cases h : m = k ∧ m < tl.length
        · rw [if_pos h, if_pos (this.mp h)]
        · rw [if_neg h, if_neg (fun hc => h (this.mpr hc))]

theorem foldl_length_pres {α β : Type} (f : List α → β → List α)
    (hf : ∀ l b, (f l b).length = l.length) :
    ∀ (xs : List β) (l : List α), (xs.foldl f l).length = l.length := by
  intro xs
  induction xs with
  | nil => intro l; rfl
  | cons hd tl ih => intro l; rw [List.foldl_cons, ih, hf]

theorem setRange_fold_length {α : Type} (f : ℕ → α) (base : ℕ) :
    ∀ (n : ℕ) (vs : List α),
      ((List.range n).foldl (fun v y => v.set (base + y) (f (base + y))) vs).length
        = vs.length := by
  intro n
  induction n with
  | zero => intro vs; simp
  | succ m ih =>
    intro vs
    rw [List.range_succ, List.foldl_append]
    simp only [List.foldl_cons, List.foldl_nil, List.length_set]
    exact ih vs

theorem setRange_fold_untouched {α : Type} (f : ℕ → α) (base : ℕ) :
    ∀ (n : ℕ) (vs : List α) (p : ℕ), (∀ y, y < n → p ≠ base + y) →
      ((List.range n).foldl (fun v y => v.set (base + y) (f (base + y))) vs)[p]?
        = vs[p]? := by
  intro n
  induction n with
  | zero => intro vs p _; simp
  | succ m ih =>
    intro vs p hp
    rw [List.range_succ, List.foldl_append]
    simp only [List.foldl_cons, List.foldl_nil]
    rw [set_getElem?,
      if_neg (fun hc => hp m (Nat.lt_succ_self m) hc.1.symm)]
    exact ih vs p (fun y hy => hp y (Nat.lt_succ_of_lt hy))

theorem setRange_fold_touched {α : Type} (f : ℕ → α) (base : ℕ) :
    ∀ (n : ℕ) (vs : List α) (y : ℕ), y < n →
      ((List.range n).foldl (fun v y => v.set (base + y) (f (base + y))) vs)[base + y]?
        = if base + y < vs.length then some (f (base + y)) else none := by
  intro n
  induction n with
  | zero => intro vs y hy; omega
  | succ m ih =>
    intro vs y hy
    rw [List.range_succ, List.foldl_append]
    simp only [List.foldl_cons, List.foldl_nil]
    rw [set_getElem?, setRange_fold_length]
    rcases Nat.lt_or_ge y m with hym | hym
    · rw [if_neg (fun hc => (by omega : base + m ≠ base + y) hc.1)]
      exact ih vs y hym
    · have hym2 : y = m := by omega
      subst hym2
      by_cases hlen : base + y < vs.length
      · rw [if_pos ⟨rfl, hlen⟩, if_pos hlen]
      · rw [if_neg (fun hc => hlen hc.2), if_neg hlen,
          setRange_fold_untouched f base y vs _ (fun y2 hy2 hcp => by omega),
          List.getElem?_eq_none (by omega)]

/-! ### Characterization of the `fromHeightmap` double loop -/

theorem fromHeightmap_length (verts : List ℚ) (px : ℕ → Pixel) (o : ImageOptions) :
    (fromHeightmap verts px o).length = verts.length :=
  foldl_length_pres _
    (fun l b => setRange_fold_length (decodeAt px o) (b * o.heightSegments)
      o.heightSegments l) _ _

theorem fromHeightmap_miss (verts : List ℚ) (px : ℕ → Pixel) (o : ImageOptions)
    (p : ℕ) (hp : ∀ x, x < o.widthSegments → ∀ y, y < o.heightSegments →
      p ≠ x * o.heightSegments + y) :
    (fromHeightmap verts px o)[p]? = verts[p]? := by
  unfold fromHeightmap
  revert hp
  generalize o.widthSegments = w
  induction w with
  | zero => intro _; simp
  | succ m ih =>
    intro hp
    rw [List.range_succ, List.foldl_append]
    simp only [List.foldl_cons, List.foldl_nil]
    rw [setRange_fold_untouched (decodeAt px o) (m * o.heightSegments)
      o.heightSegments _ p (fun y hy => hp m (Nat.lt_succ_self m) y hy)]
    exact ih (fun x hx y hy => hp x (Nat.lt_succ_of_lt hx) y hy)

theorem fromHeightmap_hit (verts : List ℚ) (px : ℕ → Pixel) (o : ImageOptions)
    (x y : ℕ) (hx : x < o.widthSegments) (hy : y < o.heightSegments) :
    (fromHeightmap verts px o)[x * o.heightSegments + y]?
      = if x * o.heightSegments + y < verts.length then
          some (decodeAt px o (x * o.heightSegments + y))
        else none := by
  unfold fromHeightmap
  revert hx
  generalize o.widthSegments = w
  induction w with
  | zero => intro hx; omega
  | succ m ih =>
    intro hx
    rw [List.range_succ, List.foldl_append]
    simp only [List.foldl_cons, List.foldl_nil]
    rcases Nat.lt_or_ge x m with hxm | hxm
    · have h1 : x * o.heightSegments + y < m * o.heightSegments := by
        calc x * o.heightSegments + y < x * o.heightSegments + o.heightSegments := by
              omega
        _ = (x + 1) * o.heightSegments := by ring
        _ ≤ m * o.heightSegments := Nat.mul_le_mul_right _ (by omega)
      rw [setRange_fold_untouched (decodeAt px o) (m * o.heightSegments)
        o.heightSegments _ _ (fun y2 hy2 hcp => by omega)]
      exact ih hxm
    · have hxe : x = m := by omega
      subst hxe
      rw [setRange_fold_touched (decodeAt px o) (x * o.heightSegments)
        o.heightSegments _ y hy]
      rw [foldl_length_pres _
        (fun l b => setRange_fold_length (decodeAt px o) (b * o.heightSegments)
          o.heightSegments l)]

theorem fromHeightmap_index (verts : List ℚ) (px : ℕ → Pixel) (o : ImageOptions)
    (i : ℕ) (hi : i < o.widthSegments * o.heightSegments) :
    (fromHeightmap verts px o)[i]? =
      if i < verts.length then
        some (decodePixel (px i) o.minHeight o.maxHeight)
      else none := by
  have hh : 0 < o.heightSegments := by
    rcases Nat.eq_zero_or_pos o.heightSegments with h0 | h0
    · rw [h0, Nat.mul_zero] at hi; omega
    · exact h0
  have hdecomp : (i / o.heightSegments) * o.heightSegments + i % o.heightSegments = i := by
    rw [Nat.mul_comm]
    exact Nat.div_add_mod i o.heightSegments
  have hx : i / o.heightSegments < o.widthSegments :=
    (Nat.div_lt_iff_lt_mul hh).mpr (by omega)
  have h2 := fromHeightmap_hit verts px o (i / o.heightSegments) (i % o.heightSegments)
    hx (Nat.mod_lt i hh)
  rw [hdecomp] at h2
  exact h2

/-! ### Claims C2, C3, C5, C1 -/

/-- Claim C2 (confirmed): for every pixel with channel values R, G, B (alpha
ignored), `fromHeightmap` assigns to the corresponding sample the value
`((R<<16) + (G<<8) + B) / 0xFFFFFF * (maxHeight - minHeight) + minHeight`. -/
theorem fromHeightmap_decodes_packed_rgb (verts : List ℚ) (px : ℕ → Pixel)
    (o : ImageOptions) (i : ℕ)
    (hi : i < o.widthSegments * o.heightSegments) (hv : i < verts.length) :
    (fromHeightmap verts px o)[i]? =
      some ((((px i).1 * 65536 + (px i).2.1 * 256 + (px i).2.2 : ℕ) : ℚ) / 0xffffff
        * (o.maxHeight - o.minHeight) + o.minHeight) := by
  rw [fromHeightmap_index verts px o i hi, if_pos hv]
  unfold decodePixel
  norm_num [Nat.shiftLeft_eq]

theorem fromHeightmap_decodes_packed_rgb_witness :
    (fromHeightmap [(5 : ℚ)] (fun _ => (1, 2, 3)) ⟨1, 1, 0, 0xffffff⟩)[0]? =
      some ((((1 * 65536 + 2 * 256 + 3 : ℕ) : ℚ) / 0xffffff)
        * ((0xffffff : ℚ) - 0) + 0) :=
  fromHeightmap_decodes_packed_rgb [(5 : ℚ)] (fun _ => (1, 2, 3)) ⟨1, 1, 0, 0xffffff⟩ 0
    (by decide) (by decide)

/-- Claim C3 (counterexample): with `widthSegments = heightSegments = 1` the
claim says the decoder populates a `(1+1) * (1+1) = 4`-sample grid, one pixel
per sample.  In the code the canvas is `OffscreenCanvas(widthSegments,
heightSegments)`, i.e. 1×1, so exactly one sample is written and samples 1..3
keep their previous values — here the sentinel 9. -/
theorem fromHeightmap_writes_only_segments_grid :
    fromHeightmap [(9 : ℚ), 9, 9, 9] (fun _ => (0, 0, 0)) ⟨1, 1, 0, 1⟩
      = [0, 9, 9, 9] := by
  unfold fromHeightmap decodeAt decodePixel
  norm_num [List.range_succ]

/-- Claim C3 (amended): the decoded grid has `widthSegments * heightSegments`
samples (the segment counts themselves, not segments+1), and the pixel at
linear buffer index `i` is written to the sample at the same linear index `i`
(the loop iterates column-major, but `vertIndex = pixelIndex / 4` makes the
pixel-to-sample map the identity on linear indices); samples at index
`≥ widthSegments * heightSegments` are never written. -/
theorem fromHeightmap_grid_mapping (verts : List ℚ) (px : ℕ → Pixel)
    (o : ImageOptions) :
    (∀ i, i < o.widthSegments * o.heightSegments → i < verts.length →
        (fromHeightmap verts px o)[i]?
          = some (decodePixel (px i) o.minHeight o.maxHeight))
    ∧ ∀ i, o.widthSegments * o.heightSegments ≤ i →
        (fromHeightmap verts px o)[i]? = verts[i]? := by
  constructor
  · intro i hi hv
    rw [fromHeightmap_index verts px o i hi, if_pos hv]
  · intro i hi
    refine fromHeightmap_miss verts px o i (fun x hx y hy hc => ?_)
    have h1 : (x + 1) * o.heightSegments = x * o.heightSegments + o.heightSegments := by
      ring
    have h2 : (x + 1) * o.heightSegments ≤ o.widthSegments * o.heightSegments :=
      Nat.mul_le_mul_right _ (by omega)
    omega

theorem fromHeightmap_grid_mapping_witness :
    (fromHeightmap [(9 : ℚ), 9, 9, 9] (fun _ => (0, 0, 0)) ⟨1, 1, 0, 1⟩)[0]?
        = some (decodePixel (0, 0, 0) 0 1)
    ∧ (fromHeightmap [(9 : ℚ), 9, 9, 9] (fun _ => (0, 0, 0)) ⟨1, 1, 0, 1⟩)[2]?
        = [(9 : ℚ), 9, 9, 9][2]? :=
  ⟨(fromHeightmap_grid_mapping [(9 : ℚ), 9, 9, 9] (fun _ => (0, 0, 0)) ⟨1, 1, 0, 1⟩).1
      0 (by decide) (by decide),
   (fromHeightmap_grid_mapping [(9 : ℚ), 9, 9, 9] (fun _ => (0, 0, 0)) ⟨1, 1, 0, 1⟩).2
      2 (by decide)⟩

theorem clampByte_le (z : ℤ) : clampByte z ≤ 255 := by
  unfold clampByte
  omega

/-- Claim C5 (confirmed): with `maxHeight = minHeight` (zero spread) the decoder
assigns `minHeight` to every sample it writes (`packed / 0xFFFFFF * 0 +
minHeight`), and every pixel the encoder produces is a well-defined byte
quadruple `(b, b, b, 255)` with `b ≤ 255`: the division by zero yields
NaN/Infinity intermediates in JS, but the `Uint8ClampedArray` store always
lands on a valid byte. -/
theorem zero_spread_no_nan :
    (∀ (verts : List ℚ) (px : ℕ → Pixel) (wS hS : ℕ) (m : ℚ) (i : ℕ),
        i < wS * hS → i < verts.length →
        (fromHeightmap verts px ⟨wS, hS, m, m⟩)[i]? = some m)
    ∧ ∀ (g : List ℚ) (wS hS : ℕ) (m : ℚ) (q : RGBA),
        q ∈ toHeightmap g ⟨wS, hS, some m, some m⟩ →
        ∃ b, b ≤ 255 ∧ q = (b, b, b, 255) := by
  constructor
  · intro verts px wS hS m i hi hv
    rw [fromHeightmap_index verts px ⟨wS, hS, m, m⟩ i hi, if_pos hv]
    unfold decodePixel
    norm_num
  · intro g wS hS m q hq
    unfold toHeightmap at hq
    simp only [List.mem_map, List.mem_range] at hq
    obtain ⟨i, _, rfl⟩ := hq
    exact ⟨_, clampByte_le _, rfl⟩

theorem toHeightmapPixel_zero_spread (m z : ℚ) : toHeightmapPixel m m z = 0 := by
  unfold toHeightmapPixel jsRound
  rw [sub_self, div_zero, zero_mul, zero_add,
    show ⌊(1 : ℚ)/2⌋ = 0 by
      rw [Int.floor_eq_zero_iff]
      constructor <;> norm_num]
  rfl

theorem zero_spread_no_nan_witness :
    (fromHeightmap [(3 : ℚ)] (fun _ => (7, 7, 7)) ⟨1, 1, 2, 2⟩)[0]? = some 2
    ∧ ∃ b, b ≤ 255 ∧ ((0, 0, 0, 255) : RGBA) = (b, b, b, 255) :=
  ⟨zero_spread_no_nan.1 [(3 : ℚ)] (fun _ => (7, 7, 7)) 1 1 2 0 (by decide) (by decide),
   zero_spread_no_nan.2 [(3 : ℚ), 3, 3, 3] 1 1 2 (0, 0, 0, 255) (by
      unfold toHeightmap
      simp only [List.mem_map, List.mem_range]
      refine ⟨0, by norm_num, ?_⟩
      have hmin : encodeMin ⟨1, 1, some 2, some 2⟩ [(3 : ℚ), 3, 3, 3] = 2 := rfl
      have hmax : encodeMax ⟨1, 1, some 2, some 2⟩ [(3 : ℚ), 3, 3, 3] = 2 := rfl
      rw [hmin, hmax, toHeightmapPixel_zero_spread])⟩

/-- Claim C1 (code bug): the round-trip cannot reproduce every sample within one
quantization unit, because the encoder emits a `(widthSegments+1) *
(heightSegments+1)`-pixel image while the decoder reads it back through a
`widthSegments * heightSegments` canvas and writes only that many samples.
Concretely, with `widthSegments = heightSegments = 1` and explicit bounds
`[0, 255]`: the field `[0, 255, 255, 255]` encodes to a 4-pixel image, but
decoding — whatever pixels `drawImage`'s rescale produces — leaves sample 3 at
its prior value `0`, an error of `255`, far above `(255-0)/255 = 1`. -/
theorem roundtrip_within_quantization_fails :
    (toHeightmap [0, 255, 255, 255] ⟨1, 1, some 0, some 255⟩).length = 4
    ∧ (∀ px : ℕ → Pixel,
        (fromHeightmap [0, 0, 0, 0] px ⟨1, 1, 0, 255⟩)[3]? = some 0)
    ∧ ¬(|(255 : ℚ) - 0| ≤ ((255 : ℚ) - 0) / 255) := by
  refine ⟨by decide, fun px => ?_, by rw [abs_of_nonneg (by norm_num)]; norm_num⟩
  rw [fromHeightmap_miss _ _ _ _ (fun x hx y hy => ?_)]
  · rfl
  · show (3 : ℕ) ≠ x * 1 + y
    have hx2 : x < 1 := hx
    have hy2 : y < 1 := hy
    omega

/-! ### Embedding of `src/terrain.ts` -/

/-- The dimension fields of `TerrainOptions` read by the `Terrain` constructor. -/
structure TerrainCtorOptions where
  widthSegments : ℚ
  heightSegments : ℚ
  width : ℚ
  height : ℚ

/-- JS `x || d` for a numeric `x`: `0` (and `NaN`, which `ℚ` lacks) is falsy and
selects the default; every other number, negative ones included, is kept. -/
def jsOr (x d : ℚ) : ℚ := if x = 0 then d else x

/-- `src/terrain.ts`, `Terrain` constructor lines 45-49: resolution of the four
dimension fields, `this.widthSegments = options.widthSegments || 31`,
`this.heightSegments = options.heightSegments || 31`,
`this.width = options.width || 64`, `this.height = options.height || 64`.
No validation is performed and no error path exists; the constructor is total. -/
def terrainCtorDims (o : TerrainCtorOptions) : ℚ × ℚ × ℚ × ℚ :=
  (jsOr o.widthSegments 31, jsOr o.heightSegments 31, jsOr o.width 64, jsOr o.height 64)

/-- Claim C9 (counterexample): the constructor does not signal any error for
zero or negative dimensions.  A zero dimension is silently replaced by the
default (31 segments / 64 size), and negative dimensions are kept unchanged. -/
theorem terrain_dims_counterexample :
    terrainCtorDims ⟨0, 0, 0, 0⟩ = (31, 31, 64, 64)
    ∧ terrainCtorDims ⟨-5, -5, -5, -5⟩ = (-5, -5, -5, -5) := by
  decide

/-- Claim C9 (amended): `Terrain` construction performs no dimension validation
and signals no error: each dimension field equal to `0` is silently replaced by
its default (`31` for segment counts, `64` for sizes) via JS `||`, and every
non-zero value — negative dimensions included — is accepted unchanged. -/
theorem terrain_dims_amended (o : TerrainCtorOptions) :
    (o.widthSegments = 0 → (terrainCtorDims o).1 = 31)
    ∧ (o.widthSegments ≠ 0 → (terrainCtorDims o).1 = o.widthSegments)
    ∧ (o.heightSegments = 0 → (terrainCtorDims o).2.1 = 31)
    ∧ (o.heightSegments ≠ 0 → (terrainCtorDims o).2.1 = o.heightSegments)
    ∧ (o.width = 0 → (terrainCtorDims o).2.2.1 = 64)
    ∧ (o.width ≠ 0 → (terrainCtorDims o).2.2.1 = o.width)
    ∧ (o.height = 0 → (terrainCtorDims o).2.2.2 = 64)
    ∧ (o.height ≠ 0 → (terrainCtorDims o).2.2.2 = o.height) := by
  refine ⟨?_, ?_, ?_, ?_, ?_, ?_, ?_, ?_⟩ <;>
    · intro h
      simp [terrainCtorDims, jsOr, h]

theorem terrain_dims_amended_witness :
    (terrainCtorDims ⟨0, 1, -2, 3⟩).1 = 31
    ∧ (terrainCtorDims ⟨0, 1, -2, 3⟩).2.2.1 = -2 :=
  ⟨(terrain_dims_amended ⟨0, 1, -2, 3⟩).1 rfl,
   (terrain_dims_amended ⟨0, 1, -2, 3⟩).2.2.2.2.2.1 (by norm_num)⟩

/-- The fields of `TerrainOptions` read by `normalizeTerrain`.  The four filters
(`applyTurbulenceTurbulence`, `applyTerrainStep`, `applyTerrainSmooth`,
`applyTerrainClamp`) are imported from `src/filters.ts`, which is not among the
analyzed sources, so they are abstract function parameters below; `after = none`
models the default `after: null`. -/
structure NormOptions (α : Type) where
  turbulent : Bool
  steps : ℚ
  after : Option (α → α)

/-- `src/terrain.ts` `normalizeTerrain` (lines 124-147): the conditional filter
pipeline over the vertex array.  The JS guard `options.steps && options.steps > 1`
is number truthiness (`steps ≠ 0`) conjoined with the comparison, and
`typeof options.after === 'function'` is `Option.isSome` on `after`. -/
def normalizeTerrain {α : Type} (turbulenceFn : α → α) (stepFn : ℚ → α → α)
    (smoothFn clampFn : α → α) (o : NormOptions α) (v : α) : α :=
  let v1 := if o.turbulent then turbulenceFn v else v
  let v2 := if o.steps ≠ 0 ∧ 1 < o.steps then smoothFn (stepFn o.steps v1) else v1
  let v3 := clampFn v2
  match o.after with
  | some f => f v3
  | none => v3

/-- Claim C6 (confirmed): the pipeline is the composition
after-hook ∘ Clamp ∘ (Smooth ∘ Step when `steps > 1`) ∘ (Turbulence when
`turbulent`), in that fixed order; Turbulence runs exactly when `turbulent` is
true, Step then Smooth run exactly when `steps > 1` (the extra truthiness check
`steps ≠ 0` is implied), Clamp runs unconditionally, and the after hook runs
exactly when `after` is a function. -/
theorem normalizeTerrain_pipeline {α : Type} (turbulenceFn : α → α)
    (stepFn : ℚ → α → α) (smoothFn clampFn : α → α) (o : NormOptions α) (v : α) :
    normalizeTerrain turbulenceFn stepFn smoothFn clampFn o v =
      (o.after.getD id)
        (clampFn
          (if 1 < o.steps then
            smoothFn (stepFn o.steps (if o.turbulent then turbulenceFn v else v))
          else if o.turbulent then turbulenceFn v else v)) := by
  unfold normalizeTerrain
  by_cases h1 : 1 < o.steps
  · have h0 : o.steps ≠ 0 := fun h0 => by rw [h0] at h1; norm_num at h1
    simp only [if_pos (And.intro h0 h1), if_pos h1]
    cases o.after <;> rfl
  · have h2 : ¬(o.steps ≠ 0 ∧ 1 < o.steps) := fun hc => h1 hc.2
    simp only [if_neg h2, if_neg h1]
    cases o.after <;> rfl

/-! ### Claim C4: the encoder's range derivation and pixel bytes -/

theorem ite_lt_eq_max (a b : WithBot ℚ) : (if a < b then b else a) = max a b := by
  split_ifs with h
  · exact (max_eq_right h.le).symm
  · exact (max_eq_left (not_lt.mp h)).symm

theorem ite_lt_eq_min (a b : WithTop ℚ) : (if b < a then b else a) = min a b := by
  split_ifs with h
  · exact (min_eq_right h.le).symm
  · exact (min_eq_left (not_lt.mp h)).symm

theorem wbmax_acc_le :
    ∀ (g : List ℚ) (acc : WithBot ℚ),
      acc ≤ g.foldl (fun (a : WithBot ℚ) (z : ℚ) => max a (z : WithBot ℚ)) acc := by
  intro g
  induction g with
  | nil => intro acc; exact le_refl _
  | cons hd tl ih =>
    intro acc
    exact le_trans (le_max_left acc hd) (ih (max acc hd))

theorem wbmax_mem_le :
    ∀ (g : List ℚ) (acc : WithBot ℚ) (z : ℚ), z ∈ g →
      (z : WithBot ℚ) ≤ g.foldl (fun (a : WithBot ℚ) (z : ℚ) => max a (z : WithBot ℚ)) acc := by
  intro g
  induction g with
  | nil => intro acc z hz; cases hz
  | cons hd tl ih =>
    intro acc z hz
    rcases List.mem_cons.mp hz with hz | hz
    · subst hz
      exact le_trans (le_max_right acc z) (wbmax_acc_le tl (max acc z))
    · exact ih (max acc hd) z hz

theorem wbmax_cases :
    ∀ (g : List ℚ) (acc : WithBot ℚ),
      g.foldl (fun (a : WithBot ℚ) (z : ℚ) => max a (z : WithBot ℚ)) acc = acc
      ∨ ∃ z ∈ g, g.foldl (fun (a : WithBot ℚ) (z : ℚ) => max a (z : WithBot ℚ)) acc = (z : WithBot ℚ) := by
  intro g
  induction g with
  | nil => intro acc; exact Or.inl rfl
  | cons hd tl ih =>
    intro acc
    rcases ih (max acc hd) with h | ⟨z, hz, h⟩
    · rcases max_choice acc (hd : WithBot ℚ) with hm | hm
      · exact Or.inl (by rw [List.foldl_cons, h, hm])
      · exact Or.inr ⟨hd, List.mem_cons_self hd tl, by rw [List.foldl_cons, h, hm]⟩
    · exact Or.inr ⟨z, List.mem_cons_of_mem hd hz, by rw [List.foldl_cons, h]⟩

theorem wtmin_acc_le :
    ∀ (g : List ℚ) (acc : WithTop ℚ),
      g.foldl (fun (a : WithTop ℚ) (z : ℚ) => min a (z : WithTop ℚ)) acc ≤ acc := by
  intro g
  induction g with
  | nil => intro acc; exact le_refl _
  | cons hd tl ih =>
    intro acc
    exact le_trans (ih (min acc hd)) (min_le_left acc hd)

theorem wtmin_le_mem :
    ∀ (g : List ℚ) (acc : WithTop ℚ) (z : ℚ), z ∈ g →
      g.foldl (fun (a : WithTop ℚ) (z : ℚ) => min a (z : WithTop ℚ)) acc ≤ (z : WithTop ℚ) := by
  intro g
  induction g with
  | nil => intro acc z hz; cases hz
  | cons hd tl ih =>
    intro acc z hz
    rcases List.mem_cons.mp hz with hz | hz
    · subst hz
      exact le_trans (wtmin_acc_le tl (min acc z)) (min_le_right acc z)
    · exact ih (min acc hd) z hz

theorem wtmin_cases :
    ∀ (g : List ℚ) (acc : WithTop ℚ),
      g.foldl (fun (a : WithTop ℚ) (z : ℚ) => min a (z : WithTop ℚ)) acc = acc
      ∨ ∃ z ∈ g, g.foldl (fun (a : WithTop ℚ) (z : ℚ) => min a (z : WithTop ℚ)) acc = (z : WithTop ℚ) := by
  intro g
  induction g with
  | nil => intro acc; exact Or.inl rfl
  | cons hd tl ih =>
    intro acc
    rcases ih (min acc hd) with h | ⟨z, hz, h⟩
    · rcases min_choice acc (hd : WithTop ℚ) with hm | hm
      · exact Or.inl (by rw [List.foldl_cons, h, hm])
      · exact Or.inr ⟨hd, List.mem_cons_self hd tl, by rw [List.foldl_cons, h, hm]⟩
    · exact Or.inr ⟨z, List.mem_cons_of_mem hd hz, by rw [List.foldl_cons, h]⟩

theorem toHeightmapMax_none_eq (g : List ℚ) :
    toHeightmapMax none g =
      g.foldl (fun (acc : WithBot ℚ) (z : ℚ) =>
        if acc < (z : WithBot ℚ) then (z : WithBot ℚ) else acc) ⊥ := rfl

theorem toHeightmapMin_none_eq (g : List ℚ) :
    toHeightmapMin none g =
      g.foldl (fun (acc : WithTop ℚ) (z : ℚ) =>
        if (z : WithTop ℚ) < acc then (z : WithTop ℚ) else acc) ⊤ := rfl

theorem encodeMax_none (g : List ℚ) (o : EncodeOptions) (ho : o.maxHeight = none)
    (hg : g ≠ []) :
    ∃ M, encodeMax o g = M ∧ M ∈ g ∧ ∀ z ∈ g, z ≤ M := by
  unfold encodeMax
  rw [ho, toHeightmapMax_none_eq]
  simp only [ite_lt_eq_max]
  rcases wbmax_cases g ⊥ with h | ⟨z, hz, h⟩
  · obtain ⟨hd, tl, rfl⟩ := List.exists_cons_of_ne_nil hg
    have := wbmax_mem_le (hd :: tl) ⊥ hd (List.mem_cons_self hd tl)
    rw [h] at this
    exact absurd this (by simp)
  · refine ⟨z, by rw [h]; rfl, hz, fun w hw => ?_⟩
    have := wbmax_mem_le g ⊥ w hw
    rw [h] at this
    exact_mod_cast this

theorem encodeMin_none (g : List ℚ) (o : EncodeOptions) (ho : o.minHeight = none)
    (hg : g ≠ []) :
    ∃ m, encodeMin o g = m ∧ m ∈ g ∧ ∀ z ∈ g, m ≤ z := by
  unfold encodeMin
  rw [ho, toHeightmapMin_none_eq]
  simp only [ite_lt_eq_min]
  rcases wtmin_cases g ⊤ with h | ⟨z, hz, h⟩
  · obtain ⟨hd, tl, rfl⟩ := List.exists_cons_of_ne_nil hg
    have := wtmin_le_mem (hd :: tl) ⊤ hd (List.mem_cons_self hd tl)
    rw [h] at this
    exact absurd this (by simp)
  · refine ⟨z, by rw [h]; rfl, hz, fun w hw => ?_⟩
    have := wtmin_le_mem g ⊤ w hw
    rw [h] at this
    exact_mod_cast this

/-- Claim C4 (counterexample): the byte stored is the *clamped* rounded value,
not the raw `round(((z - min)/(max - min)) * 255)` the claim states.  With
supplied bounds `[0, 1]` and a sample `z = 2`, the rounded value is `510`, but
the `Uint8ClampedArray` store writes `255`. -/
theorem toHeightmap_clamps_counterexample :
    (toHeightmap [2, 1, 1, 1] ⟨1, 1, some 0, some 1⟩)[0]? = some (255, 255, 255, 255)
    ∧ jsRound (((2 : ℚ) - 0) / (1 - 0) * 255) = 510
    ∧ (510 : ℤ) ≠ 255 := by
  have hround : jsRound (((2 : ℚ) - 0) / (1 - 0) * 255) = 510 := by
    unfold jsRound
    rw [show ((2 : ℚ) - 0) / (1 - 0) * 255 + 1/2 = 1021/2 by norm_num,
      Int.floor_eq_iff] <;> norm_num
  refine ⟨?_, hround, by decide⟩
  have hmin : encodeMin ⟨1, 1, some 0, some 1⟩ [(2 : ℚ), 1, 1, 1] = 0 := rfl
  have hmax : encodeMax ⟨1, 1, some 0, some 1⟩ [(2 : ℚ), 1, 1, 1] = 1 := rfl
  unfold toHeightmap
  rw [List.getElem?_map]
  rw [show (List.range ((1 + 1) * (1 + 1)))[0]? = some 0 from rfl]
  simp only [Option.map_some']
  unfold toHeightmapPixel
  rw [hmin, hmax]
  rw [show ([(2 : ℚ), 1, 1, 1].getD 0 0) = 2 from rfl, hround]
  rfl

/-- Claim C4 (amended): `toHeightmap` uses the supplied `minHeight`/`maxHeight`
when they are present and otherwise derives the bound from the field's actual
minimum/maximum sample; every pixel is grayscale `(b, b, b, 255)` where `b` is
`round(((z - min)/(max - min)) * 255)` *clamped to `[0, 255]`* by the
`Uint8ClampedArray` store — equal to the unclamped rounded value whenever
`min ≤ z ≤ max` (hence always when the range is derived from the field). -/
theorem toHeightmap_range_and_pixels (g : List ℚ) (o : EncodeOptions) :
    (∀ a, o.minHeight = some a → encodeMin o g = a)
    ∧ (∀ b, o.maxHeight = some b → encodeMax o g = b)
    ∧ (o.minHeight = none → g ≠ [] →
        ∃ m, encodeMin o g = m ∧ m ∈ g ∧ ∀ z ∈ g, m ≤ z)
    ∧ (o.maxHeight = none → g ≠ [] →
        ∃ M, encodeMax o g = M ∧ M ∈ g ∧ ∀ z ∈ g, z ≤ M)
    ∧ (∀ i, i < (o.heightSegments + 1) * (o.widthSegments + 1) →
        (toHeightmap g o)[i]? =
          some (clampByte (jsRound
                  ((g.getD i 0 - encodeMin o g) / (encodeMax o g - encodeMin o g) * 255)),
                clampByte (jsRound
                  ((g.getD i 0 - encodeMin o g) / (encodeMax o g - encodeMin o g) * 255)),
                clampByte (jsRound
                  ((g.getD i 0 - encodeMin o g) / (encodeMax o g - encodeMin o g) * 255)),
                255))
    ∧ (∀ minv maxv z : ℚ, minv ≤ z → z ≤ maxv → minv < maxv →
        (clampByte (jsRound ((z - minv) / (maxv - minv) * 255)) : ℤ)
          = jsRound ((z - minv) / (maxv - minv) * 255)) := by
  refine ⟨?_, ?_, ?_, ?_, ?_, ?_⟩
  · intro a ha
    unfold encodeMin
    rw [ha]
    rfl
  · intro b hb
    unfold encodeMax
    rw [hb]
    rfl
  · exact encodeMin_none g o
  · exact encodeMax_none g o
  · intro i hi
    unfold toHeightmap toHeightmapPixel
    rw [List.getElem?_map, List.getElem?_range hi]
    rfl
  · intro minv maxv z hz1 hz2 hlt
    set t : ℚ := (z - minv) / (maxv - minv) * 255 with ht
    have hspread : (0 : ℚ) < maxv - minv := by linarith
    have ht0 : 0 ≤ t := by
      rw [ht]
      have : (0 : ℚ) ≤ (z - minv) / (maxv - minv) :=
        div_nonneg (by linarith) hspread.le
      linarith
    have ht1 : t ≤ 255 := by
      rw [ht]
      have h1 : (z - minv) / (maxv - minv) ≤ 1 :=
        (div_le_one hspread).mpr (by linarith)
      nlinarith
    have hlo : (0 : ℤ) ≤ jsRound t := by
      unfold jsRound
      exact Int.le_floor.mpr (by push_cast; linarith)
    have hhi : jsRound t ≤ 255 := by
      unfold jsRound
      have : ⌊t + 1/2⌋ < 256 := Int.floor_lt.mpr (by push_cast; linarith)
      omega
    unfold clampByte
    omega

theorem toHeightmap_range_and_pixels_witness :
    (encodeMax ⟨1, 1, none, some 10⟩ [(3 : ℚ), 1, 1, 1] = 10)
    ∧ (∃ m, encodeMin ⟨1, 1, none, some 10⟩ [(3 : ℚ), 1, 1, 1] = m
        ∧ m ∈ [(3 : ℚ), 1, 1, 1] ∧ ∀ z ∈ [(3 : ℚ), 1, 1, 1], m ≤ z)
    ∧ ((clampByte (jsRound (((7 : ℚ) - 1) / (9 - 1) * 255)) : ℤ)
        = jsRound (((7 : ℚ) - 1) / (9 - 1) * 255)) :=
  ⟨(toHeightmap_range_and_pixels [(3 : ℚ), 1, 1, 1] ⟨1, 1, none, some 10⟩).2.1 10 rfl,
   (toHeightmap_range_and_pixels [(3 : ℚ), 1, 1, 1] ⟨1, 1, none, some 10⟩).2.2.1 rfl
     (by simp),
   (toHeightmap_range_and_pixels [(3 : ℚ), 1, 1, 1] ⟨1, 1, none, some 10⟩).2.2.2.2.2
     1 9 7 (by norm_num) (by norm_num) (by norm_num)⟩

/-! ### Embedding of `src/weightedBoxBlurGaussian.ts`

`Float64Array` cells are `JsNum := Option ℚ`, `none` standing for NaN (a stored
NaN, or the NaN an arithmetic op produces once an out-of-bounds read returned
`undefined`).  `jsRead` models a typed-array read: out of bounds gives
`undefined`, which behaves like NaN in arithmetic, so it is also `none`.
`List.set` ignores out-of-bounds writes exactly like a typed array.  Loop
counters and element pointers (`ti`, `li`, `ri`) are naturals; the only
subtractions the source performs on pointers (`ti + w - 1`, `w * (h - 1)`)
are guarded by `w ≥ 1`/`h ≥ 1` in every theorem below, where ℕ truncation
agrees with JS. -/

abbrev JsNum := Option ℚ

abbrev Buf := List JsNum

def jsAdd : JsNum → JsNum → JsNum
  | some a, some b => some (a + b)
  | _, _ => none

def jsSub : JsNum → JsNum → JsNum
  | some a, some b => some (a - b)
  | _, _ => none

def jsMul : JsNum → JsNum → JsNum
  | some a, some b => some (a * b)
  | _, _ => none

def jsRead (l : Buf) (i : ℕ) : JsNum := l[i]?.getD none

/-- The accumulation loop `for (j = 0; j < r; j++) { val += scl[ti + j]; }`
(horizontal, `stride = 1`) and `val += scl[ti + j * w]` (vertical,
`stride = w`), reading `cnt` cells starting at `idx`. -/
def sumReads (s : Buf) (stride : ℕ) : ℕ → ℕ → JsNum → JsNum
  | _, 0, v => v
  | idx, cnt + 1, v => sumReads s stride (idx + stride) cnt (jsAdd v (jsRead s idx))

/-- Loop 1 of a blur line: `for (j = 0; j <= r; j++) { val += scl[ri] - fv;
tcl[ti] = val * iarr; ri += stride; ti += stride; }`.  State is
`(tcl, val, ti, ri)`. -/
def blurLoopA (s : Buf) (fv : JsNum) (iarr : ℚ) (stride : ℕ) :
    ℕ → Buf × JsNum × ℕ × ℕ → Buf × JsNum × ℕ × ℕ
  | 0, st => st
  | cnt + 1, (t, val, ti, ri) =>
    let v2 := jsAdd val (jsSub (jsRead s ri) fv)
    blurLoopA s fv iarr stride cnt
      (t.set ti (jsMul v2 (some iarr)), v2, ti + stride, ri + stride)

/-- Loop 2 of a blur line: `for (j = r + 1; j < len - r; j++) { val += scl[ri] -
scl[li]; tcl[ti] = val * iarr; li += stride; ri += stride; ti += stride; }`.
State is `(tcl, val, ti, li, ri)`. -/
def blurLoopB (s : Buf) (iarr : ℚ) (stride : ℕ) :
    ℕ → Buf × JsNum × ℕ × ℕ × ℕ → Buf × JsNum × ℕ × ℕ × ℕ
  | 0, st => st
  | cnt + 1, (t, val, ti, li, ri) =>
    let v2 := jsAdd val (jsSub (jsRead s ri) (jsRead s li))
    blurLoopB s iarr stride cnt
      (t.set ti (jsMul v2 (some iarr)), v2, ti + stride, li + stride, ri + stride)

/-- Loop 3 of a blur line: `for (j = len - r; j < len; j++) { val += lv -
scl[li]; tcl[ti] = val * iarr; li += stride; ti += stride; }`.  State is
`(tcl, val, ti, li)`. -/
def blurLoopC (s : Buf) (lv : JsNum) (iarr : ℚ) (stride : ℕ) :
    ℕ → Buf × JsNum × ℕ × ℕ → Buf × JsNum × ℕ × ℕ
  | 0, st => st
  | cnt + 1, (t, val, ti, li) =>
    let v2 := jsAdd val (jsSub lv (jsRead s li))
    blurLoopC s lv iarr stride cnt
      (t.set ti (jsMul v2 (some iarr)), v2, ti + stride, li + stride)

/-- One line (row of `boxBlurH` with `stride = 1`, `len = w`, `ti0 = i * w`, or
column of `boxBlurV` with `stride = w`, `len = h`, `ti0 = i`): `fv = scl[ti]`,
`lv = scl[ti + stride * (len - 1)]`, `iarr = 1 / (r + r + 1)`,
`val = (r + 1) * fv` plus the pre-sum, then the three loops; loop 2 runs
`len - (2r + 1)` times (JS `for (j = r + 1; j < len - r)`, never negative) and
loop 3 runs `r` times (JS `for (j = len - r; j < len)`). -/
def blurLine (s : Buf) (stride len r : ℕ) (t : Buf) (ti0 : ℕ) : Buf :=
  let fv := jsRead s ti0
  let lv := jsRead s (ti0 + stride * (len - 1))
  let iarr : ℚ := 1 / (r + r + 1)
  let val0 := sumReads s stride ti0 r (jsMul (some ((r : ℚ) + 1)) fv)
  let stA := blurLoopA s fv iarr stride (r + 1) (t, val0, ti0, ti0 + stride * r)
  let stB := blurLoopB s iarr stride (len - (2 * r + 1))
    (stA.1, stA.2.1, stA.2.2.1, ti0, stA.2.2.2)
  let stC := blurLoopC s lv iarr stride r (stB.1, stB.2.1, stB.2.2.1, stB.2.2.2.1)
  stC.1

/-- `boxBlurH(scl, tcl, w, h, r)`: one horizontal pass per row `i < h`. -/
def boxBlurH (s t : Buf) (w h r : ℕ) : Buf :=
  (List.range h).foldl (fun tb i => blurLine s 1 w r tb (i * w)) t

/-- `boxBlurV(scl, tcl, w, h, r)`: one vertical pass per column `i < w`. -/
def boxBlurV (s t : Buf) (w h r : ℕ) : Buf :=
  (List.range w).foldl (fun tb i => blurLine s w h r tb i) t

/-- The copy loop of `boxBlur`: `for (i = 0; i < scl.length; i++) tcl[i] = scl[i]`. -/
def copyInto (s t : Buf) : Buf :=
  (List.range s.length).foldl (fun tb i => tb.set i (jsRead s i)) t

/-- `boxBlur(scl, tcl, w, h, r)`: copies `scl` into `tcl`, then
`boxBlurH(tcl, scl, …)` — writing the horizontally blurred channel back into
`scl` — then `boxBlurV(scl, tcl, …)`.  Returns the final contents of
`(scl, tcl)`. -/
def boxBlur (scl tcl : Buf) (w h r : ℕ) : Buf × Buf :=
  let tcl1 := copyInto scl tcl
  let scl1 := boxBlurH tcl1 scl w h r
  let tcl2 := boxBlurV scl1 tcl1 w h r
  (scl1, tcl2)

/-- `Math.floor(Math.sqrt(q))` for `q ≥ 0`, computed exactly on rationals. -/
def sqrtFloor (q : ℚ) : ℤ := (Nat.sqrt ⌊q⌋.toNat : ℤ)

/-- Conversion applied when assigning to an `Int16Array` slot. -/
def toInt16 (z : ℤ) : ℤ := (z + 2 ^ 15) % 2 ^ 16 - 2 ^ 15

/-- `boxesForGauss(sigma, boxCount)`: ideal width `sqrt(12σ²/n + 1)`, lower odd
bound `wl` (decremented when even), `wu = wl + 2`, and
`mIdeal = (12σ² - n·wl² - 4n·wl - 3n) / (-4wl - 4)`, `m = Math.round(mIdeal)`;
`sizes[i] = i < m ? wl : wu` stored in an `Int16Array`. -/
def boxesForGauss (sigma : ℚ) (boxCount : ℕ) : List ℤ :=
  let wl0 : ℤ := sqrtFloor (12 * sigma * sigma / (boxCount : ℚ) + 1)
  let wl : ℤ := if wl0 % 2 = 0 then wl0 - 1 else wl0
  let wu : ℤ := wl + 2
  let mIdeal : ℚ :=
    (12 * sigma * sigma - (boxCount : ℚ) * (wl : ℚ) * (wl : ℚ)
        - 4 * (boxCount : ℚ) * (wl : ℚ) - 3 * (boxCount : ℚ))
      / (-4 * (wl : ℚ) - 4)
  let m : ℤ := jsRound mIdeal
  (List.range boxCount).map fun (i : ℕ) => toInt16 (if (i : ℤ) < m then wl else wu)

/-- The box half-width `(boxes[i] - 1) / 2` passed to `boxBlur`; the division is
exact because box sizes are odd.  `toNat` restricts to the nonnegative radii the
theorems cover (an `Int16Array` overflow could make a box size negative, far
outside every claim's regime). -/
def boxRadius (b : ℤ) : ℕ := ((b - 1) / 2).toNat

/-- `gaussianBoxBlur(src, w, h, radius, boxCount)` with no `target` passed: the
target starts as `new Float64Array(src.length)` (all zeros), and each of the
`boxCount` passes runs `boxBlur(src, target, w, h, (boxes[i] - 1) / 2)` on the
same two buffers.  Returns the final contents of `(src, target)`; the JS
function returns `target` (the second component) and leaves its `src` argument
holding the first. -/
def gaussianBoxBlur (src : Buf) (w h : ℕ) (radius : ℚ) (boxCount : ℕ) : Buf × Buf :=
  let target : Buf := List.replicate src.length (some 0)
  let boxes := boxesForGauss radius boxCount
  (List.range boxCount).foldl
    (fun st i => boxBlur st.1 st.2 w h (boxRadius (boxes.getD i 0))) (src, target)

/-! ### Basic facts about the blur model -/

theorem jsAdd_some (a b : ℚ) : jsAdd (some a) (some b) = some (a + b) := rfl

theorem jsSub_some (a b : ℚ) : jsSub (some a) (some b) = some (a - b) := rfl

theorem jsMul_some (a b : ℚ) : jsMul (some a) (some b) = some (a * b) := rfl

theorem jsRead_map_some (l : List ℚ) (p : ℕ) : jsRead (l.map some) p = l[p]? := by
  unfold jsRead
  rw [List.getElem?_map]
  cases l[p]? <;> rfl

theorem jsRead_replicate (n : ℕ) (c : ℚ) (p : ℕ) (hp : p < n) :
    jsRead (List.replicate n (some c)) p = some c := by
  unfold jsRead
  rw [List.getElem?_replicate, if_pos hp]
  rfl

theorem jsRead_of_getElem? {l : List ℚ} {p : ℕ} {a : ℚ} (h : l[p]? = some a) :
    jsRead (l.map some) p = some a := by
  rw [jsRead_map_some, h]

theorem blurLoopA_length (s : Buf) (fv : JsNum) (iarr : ℚ) (stride : ℕ) :
    ∀ (cnt : ℕ) (t : Buf) (val : JsNum) (ti ri : ℕ),
      (blurLoopA s fv iarr stride cnt (t, val, ti, ri)).1.length = t.length := by
  intro cnt
  induction cnt with
  | zero => intro t val ti ri; rfl
  | succ m ih =>
    intro t val ti ri
    rw [blurLoopA, ih, List.length_set]

theorem blurLoopB_length (s : Buf) (iarr : ℚ) (stride : ℕ) :
    ∀ (cnt : ℕ) (t : Buf) (val : JsNum) (ti li ri : ℕ),
      (blurLoopB s iarr stride cnt (t, val, ti, li, ri)).1.length = t.length := by
  intro cnt
  induction cnt with
  | zero => intro t val ti li ri; rfl
  | succ m ih =>
    intro t val ti li ri
    rw [blurLoopB, ih, List.length_set]

theorem blurLoopC_length (s : Buf) (lv : JsNum) (iarr : ℚ) (stride : ℕ) :
    ∀ (cnt : ℕ) (t : Buf) (val : JsNum) (ti li : ℕ),
      (blurLoopC s lv iarr stride cnt (t, val, ti, li)).1.length = t.length := by
  intro cnt
  induction cnt with
  | zero => intro t val ti li; rfl
  | succ m ih =>
    intro t val ti li
    rw [blurLoopC, ih, List.length_set]

theorem blurLine_length (s : Buf) (stride len r : ℕ) (t : Buf) (ti0 : ℕ) :
    (blurLine s stride len r t ti0).length = t.length := by
  unfold blurLine
  rw [blurLoopC_length, blurLoopB_length, blurLoopA_length]

theorem boxBlurH_length (s t : Buf) (w h r : ℕ) :
    (boxBlurH s t w h r).length = t.length :=
  foldl_length_pres _ (fun l b => blurLine_length s 1 w r l (b * w)) _ _

theorem boxBlurV_length (s t : Buf) (w h r : ℕ) :
    (boxBlurV s t w h r).length = t.length :=
  foldl_length_pres _ (fun l b => blurLine_length s w h r l b) _ _

theorem copyInto_length (s t : Buf) : (copyInto s t).length = t.length :=
  foldl_length_pres _ (fun l b => List.length_set l b _) _ _

theorem copyFold_getElem? (s : Buf) :
    ∀ (n : ℕ) (vs : Buf) (p : ℕ),
      ((List.range n).foldl (fun tb i => tb.set i (jsRead s i)) vs)[p]?
        = if p < n ∧ p < vs.length then some (jsRead s p) else vs[p]? := by
  intro n
  induction n with
  | zero =>
    intro vs p
    rw [if_neg (fun hc => by omega)]
    rfl
  | succ m ih =>
    intro vs p
    rw [List.range_succ, List.foldl_append]
    simp only [List.foldl_cons, List.foldl_nil]
    rw [set_getElem?,
      foldl_length_pres _ (fun l b => List.length_set l b _)]
    rcases Nat.lt_trichotomy p m with hpm | hpm | hpm
    · rw [if_neg (fun hc => by omega), ih]
      by_cases hvp : p < vs.length
      · rw [if_pos ⟨hpm, hvp⟩, if_pos ⟨by omega, hvp⟩]
      · rw [if_neg (fun hc => hvp hc.2), if_neg (fun hc => hvp hc.2)]
    · subst hpm
      by_cases hvp : p < vs.length
      · rw [if_pos ⟨rfl, hvp⟩, if_pos ⟨by omega, hvp⟩]
      · rw [if_neg (fun hc => hvp hc.2), if_neg (fun hc => hvp hc.2), ih,
          if_neg (fun hc => by omega)]
    · rw [if_neg (fun hc => by omega), ih, if_neg (fun hc => by omega),
        if_neg (fun hc => by omega)]

theorem copyInto_eq (s t : Buf) (hl : t.length = s.length) : copyInto s t = s := by
  have hlen : (copyInto s t).length = s.length := by rw [copyInto_length, hl]
  apply List.ext_getElem?
  intro p
  unfold copyInto
  rw [copyFold_getElem?]
  by_cases hp : p < s.length
  · rw [if_pos ⟨hp, by omega⟩, List.getElem?_eq_getElem hp]
    unfold jsRead
    rw [List.getElem?_eq_getElem hp]
    rfl
  · rw [if_neg (fun hc => hp hc.1), List.getElem?_eq_none (by omega),
      List.getElem?_eq_none (by omega)]

/-! ### Constant-field behaviour of the blur loops -/

theorem blurLoopA_const (s : Buf) (c x iarr : ℚ) (stride : ℕ) (hst : 0 < stride) :
    ∀ (cnt : ℕ) (t : Buf) (ti ri : ℕ),
      (∀ j, j < cnt → jsRead s (ri + j * stride) = some c) →
      ∃ t2, blurLoopA s (some c) iarr stride cnt (t, some x, ti, ri)
          = (t2, some x, ti + cnt * stride, ri + cnt * stride)
        ∧ t2.length = t.length
        ∧ (∀ j, j < cnt → t2[ti + j * stride]?
            = if ti + j * stride < t.length then some (some (x * iarr)) else none)
        ∧ (∀ p, (∀ j, j < cnt → p ≠ ti + j * stride) → t2[p]? = t[p]?) := by
  intro cnt
  induction cnt with
  | zero =>
    intro t ti ri _
    exact ⟨t, by simp [blurLoopA], rfl, fun j hj => by omega, fun p _ => rfl⟩
  | succ m ih =>
    intro t ti ri hread
    have hr0 : jsRead s ri = some c := by
      have := hread 0 (by omega)
      simpa using this
    have hv2 : jsAdd (some x) (jsSub (jsRead s ri) (some c)) = some x := by
      rw [hr0, jsSub_some, jsAdd_some, sub_self, add_zero]
    obtain ⟨t2, heq, hlen, htouch, huntouch⟩ :=
      ih (t.set ti (jsMul (some x) (some iarr))) (ti + stride) (ri + stride)
        (fun j hj => by
          have := hread (j + 1) (by omega)
          rwa [show ri + (j + 1) * stride = ri + stride + j * stride by ring] at this)
    refine ⟨t2, ?_, ?_, ?_, ?_⟩
    · rw [blurLoopA, hv2, heq,
        show ti + stride + m * stride = ti + (m + 1) * stride by ring,
        show ri + stride + m * stride = ri + (m + 1) * stride by ring]
    · rw [hlen, List.length_set]
    · intro j hj
      cases j with
      | zero =>
        simp only [Nat.zero_mul, Nat.add_zero]
        rw [huntouch ti (fun j2 hj2 => by
          have : 0 < stride * (j2 + 1) := by positivity
          omega)]
        rw [set_getElem?, jsMul_some]
        by_cases hti : ti < t.length
        · rw [if_pos ⟨rfl, hti⟩, if_pos hti]
        · rw [if_neg (fun hc => hti hc.2), if_neg hti,
            List.getElem?_eq_none (by omega)]
      | succ k =>
        have hpos : ti + (k + 1) * stride = ti + stride + k * stride := by ring
        rw [hpos, htouch k (by omega), List.length_set]
    · intro p hp
      rw [huntouch p (fun j hj => by
        have := hp (j + 1) (by omega)
        rwa [show ti + (j + 1) * stride = ti + stride + j * stride by ring] at this)]
      rw [set_getElem?, if_neg (fun hc => hp 0 (by omega) (by omega))]

theorem blurLoopB_const (s : Buf) (c x iarr : ℚ) (stride : ℕ) (hst : 0 < stride) :
    ∀ (cnt : ℕ) (t : Buf) (ti li ri : ℕ),
      (∀ j, j < cnt → jsRead s (ri + j * stride) = some c) →
      (∀ j, j < cnt → jsRead s (li + j * stride) = some c) →
      ∃ t2, blurLoopB s iarr stride cnt (t, some x, ti, li, ri)
          = (t2, some x, ti + cnt * stride, li + cnt * stride, ri + cnt * stride)
        ∧ t2.length = t.length
        ∧ (∀ j, j < cnt → t2[ti + j * stride]?
            = if ti + j * stride < t.length then some (some (x * iarr)) else none)
        ∧ (∀ p, (∀ j, j < cnt → p ≠ ti + j * stride) → t2[p]? = t[p]?) := by
  intro cnt
  induction cnt with
  | zero =>
    intro t ti li ri _ _
    exact ⟨t, by simp [blurLoopB], rfl, fun j hj => by omega, fun p _ => rfl⟩
  | succ m ih =>
    intro t ti li ri hri hli
    have hr0 : jsRead s ri = some c := by simpa using hri 0 (by omega)
    have hl0 : jsRead s li = some c := by simpa using hli 0 (by omega)
    have hv2 : jsAdd (some x) (jsSub (jsRead s ri) (jsRead s li)) = some x := by
      rw [hr0, hl0, jsSub_some, jsAdd_some, sub_self, add_zero]
    obtain ⟨t2, heq, hlen, htouch, huntouch⟩ :=
      ih (t.set ti (jsMul (some x) (some iarr))) (ti + stride) (li + stride)
        (ri + stride)
        (fun j hj => by
          have := hri (j + 1) (by omega)
          rwa [show ri + (j + 1) * stride = ri + stride + j * stride by ring] at this)
        (fun j hj => by
          have := hli (j + 1) (by omega)
          rwa [show li + (j + 1) * stride = li + stride + j * stride by ring] at this)
    refine ⟨t2, ?_, ?_, ?_, ?_⟩
    · rw [blurLoopB, hv2, heq,
        show ti + stride + m * stride = ti + (m + 1) * stride by ring,
        show li + stride + m * stride = li + (m + 1) * stride by ring,
        show ri + stride + m * stride = ri + (m + 1) * stride by ring]
    · rw [hlen, List.length_set]
    · intro j hj
      cases j with
      | zero =>
        simp only [Nat.zero_mul, Nat.add_zero]
        rw [huntouch ti (fun j2 hj2 => by
          have : 0 < stride * (j2 + 1) := by positivity
          omega)]
        rw [set_getElem?, jsMul_some]
        by_cases hti : ti < t.length
        · rw [if_pos ⟨rfl, hti⟩, if_pos hti]
        · rw [if_neg (fun hc => hti hc.2), if_neg hti,
            List.getElem?_eq_none (by omega)]
      | succ k =>
        have hpos : ti + (k + 1) * stride = ti + stride + k * stride := by ring
        rw [hpos, htouch k (by omega), List.length_set]
    · intro p hp
      rw [huntouch p (fun j hj => by
        have := hp (j + 1) (by omega)
        rwa [show ti + (j + 1) * stride = ti + stride + j * stride by ring] at this)]
      rw [set_getElem?, if_neg (fun hc => hp 0 (by omega) (by omega))]

theorem blurLoopC_const (s : Buf) (c x iarr : ℚ) (stride : ℕ) (hst : 0 < stride) :
    ∀ (cnt : ℕ) (t : Buf) (ti li : ℕ),
      (∀ j, j < cnt → jsRead s (li + j * stride) = some c) →
      ∃ t2, blurLoopC s (some c) iarr stride cnt (t, some x, ti, li)
          = (t2, some x, ti + cnt * stride, li + cnt * stride)
        ∧ t2.length = t.length
        ∧ (∀ j, j < cnt → t2[ti + j * stride]?
            = if ti + j * stride < t.length then some (some (x * iarr)) else none)
        ∧ (∀ p, (∀ j, j < cnt → p ≠ ti + j * stride) → t2[p]? = t[p]?) := by
  intro cnt
  induction cnt with
  | zero =>
    intro t ti li _
    exact ⟨t, by simp [blurLoopC], rfl, fun j hj => by omega, fun p _ => rfl⟩
  | succ m ih =>
    intro t ti li hli
    have hl0 : jsRead s li = some c := by simpa using hli 0 (by omega)
    have hv2 : jsAdd (some x) (jsSub (some c) (jsRead s li)) = some x := by
      rw [hl0, jsSub_some, jsAdd_some, sub_self, add_zero]
    obtain ⟨t2, heq, hlen, htouch, huntouch⟩ :=
      ih (t.set ti (jsMul (some x) (some iarr))) (ti + stride) (li + stride)
        (fun j hj => by
          have := hli (j + 1) (by omega)
          rwa [show li + (j + 1) * stride = li + stride + j * stride by ring] at this)
    refine ⟨t2, ?_, ?_, ?_, ?_⟩
    · rw [blurLoopC, hv2, heq,
        show ti + stride + m * stride = ti + (m + 1) * stride by ring,
        show li + stride + m * stride = li + (m + 1) * stride by ring]
    · rw [hlen, List.length_set]
    · intro j hj
      cases j with
      | zero =>
        simp only [Nat.zero_mul, Nat.add_zero]
        rw [huntouch ti (fun j2 hj2 => by
          have : 0 < stride * (j2 + 1) := by positivity
          omega)]
        rw [set_getElem?, jsMul_some]
        by_cases hti : ti < t.length
        · rw [if_pos ⟨rfl, hti⟩, if_pos hti]
        · rw [if_neg (fun hc => hti hc.2), if_neg hti,
            List.getElem?_eq_none (by omega)]
      | succ k =>
        have hpos : ti + (k + 1) * stride = ti + stride + k * stride := by ring
        rw [hpos, htouch k (by omega), List.length_set]
    · intro p hp
      rw [huntouch p (fun j hj => by
        have := hp (j + 1) (by omega)
        rwa [show ti + (j + 1) * stride = ti + stride + j * stride by ring] at this)]
      rw [set_getElem?, if_neg (fun hc => hp 0 (by omega) (by omega))]

theorem sumReads_const (s : Buf) (c : ℚ) (stride : ℕ) :
    ∀ (cnt : ℕ) (idx : ℕ) (x : ℚ),
      (∀ j, j < cnt → jsRead s (idx + j * stride) = some c) →
      sumReads s stride idx cnt (some x) = some (x + cnt * c) := by
  intro cnt
  induction cnt with
  | zero =>
    intro idx x _
    rw [sumReads]
    norm_num
  | succ m ih =>
    intro idx x hread
    have h0 : jsRead s idx = some c := by simpa using hread 0 (by omega)
    rw [sumReads, h0, jsAdd_some,
      ih (idx + stride) (x + c) (fun j hj => by
        have := hread (j + 1) (by omega)
        rwa [show idx + (j + 1) * stride = idx + stride + j * stride by ring] at this)]
    congr 1
    push_cast
    ring

theorem line_pos_inj {ti0 stride a b : ℕ} (hst : 0 < stride)
    (h : ti0 + a * stride = ti0 + b * stride) : a = b := by
  have h2 : a * stride = b * stride := by omega
  exact Nat.eq_of_mul_eq_mul_right hst h2

/-- A full blur line over a source that reads the constant `c` at every line
position writes `c` back at every line position and touches nothing else
(provided the box fits in the line, `2r + 1 ≤ len`). -/
theorem blurLine_const (s : Buf) (c : ℚ) (stride len r : ℕ) (hst : 0 < stride)
    (hrlen : 2 * r + 1 ≤ len) (t : Buf) (ti0 : ℕ)
    (hread : ∀ q, q < len → jsRead s (ti0 + q * stride) = some c) :
    (∀ q, q < len → (blurLine s stride len r t ti0)[ti0 + q * stride]?
        = if ti0 + q * stride < t.length then some (some c) else none)
    ∧ (∀ p, (∀ q, q < len → p ≠ ti0 + q * stride) →
        (blurLine s stride len r t ti0)[p]? = t[p]?) := by
  have hfv : jsRead s ti0 = some c := by simpa using hread 0 (by omega)
  have hlv : jsRead s (ti0 + stride * (len - 1)) = some c := by
    have h := hread (len - 1) (by omega)
    rwa [show ti0 + (len - 1) * stride = ti0 + stride * (len - 1) by ring] at h
  set X : ℚ := ((r : ℚ) + 1) * c + (r : ℚ) * c with hX
  set iarr : ℚ := 1 / ((r : ℚ) + (r : ℚ) + 1) with hiarr
  have hXc : X * iarr = c := by
    have hne : ((r : ℚ) + (r : ℚ) + 1) ≠ 0 := by positivity
    rw [hX, hiarr]
    field_simp
    ring
  have hval0 : sumReads s stride ti0 r (some (((r : ℚ) + 1) * c)) = some X :=
    sumReads_const s c stride r ti0 _ (fun j hj => hread j (by omega))
  set cntB : ℕ := len - (2 * r + 1) with hcntB
  obtain ⟨t2A, heqA, hlenA, htouchA, huntouchA⟩ :=
    blurLoopA_const s c X iarr stride hst (r + 1) t ti0 (ti0 + stride * r)
      (fun j hj => by
        have h := hread (r + j) (by omega)
        rwa [show ti0 + (r + j) * stride = ti0 + stride * r + j * stride by ring] at h)
  obtain ⟨t2B, heqB, hlenB, htouchB, huntouchB⟩ :=
    blurLoopB_const s c X iarr stride hst cntB t2A (ti0 + (r + 1) * stride) ti0
      (ti0 + stride * r + (r + 1) * stride)
      (fun j hj => by
        have h := hread (2 * r + 1 + j) (by omega)
        rwa [show ti0 + (2 * r + 1 + j) * stride
          = ti0 + stride * r + (r + 1) * stride + j * stride by ring] at h)
      (fun j hj => hread j (by omega))
  obtain ⟨t2C, heqC, hlenC, htouchC, huntouchC⟩ :=
    blurLoopC_const s c X iarr stride hst r t2B
      (ti0 + (r + 1) * stride + cntB * stride) (ti0 + cntB * stride)
      (fun j hj => by
        have h := hread (cntB + j) (by omega)
        rwa [show ti0 + (cntB + j) * stride = ti0 + cntB * stride + j * stride
          by ring] at h)
  have hline : blurLine s stride len r t ti0 = t2C := by
    unfold blurLine
    dsimp only
    rw [hfv, hlv, jsMul_some, ← hiarr, ← hcntB, hval0]
    simp only [heqA, heqB, heqC]
  constructor
  · intro q hq
    rw [hline]
    rcases Nat.lt_or_ge r q with hq1 | hq1
    on_goal 2 =>
      -- q ≤ r: written by loop 1
      have e1 : t2C[ti0 + q * stride]? = t2B[ti0 + q * stride]? :=
        huntouchC _ (fun j hj hc => by
          have hc2 : ti0 + q * stride = ti0 + ((r + 1) + cntB + j) * stride := by
            rw [hc]; ring
          have := line_pos_inj hst hc2
          omega)
      have e2 : t2B[ti0 + q * stride]? = t2A[ti0 + q * stride]? :=
        huntouchB _ (fun j hj hc => by
          have hc2 : ti0 + q * stride = ti0 + ((r + 1) + j) * stride := by
            rw [hc]; ring
          have := line_pos_inj hst hc2
          omega)
      rw [e1, e2, htouchA q (by omega), hXc]
    rcases Nat.lt_or_ge q (len - r) with hq2 | hq2
    · -- r < q < len - r: written by loop 2
      have hj : q - (r + 1) < cntB := by omega
      have hpos : ti0 + (r + 1) * stride + (q - (r + 1)) * stride
          = ti0 + q * stride := by
        rw [show ti0 + (r + 1) * stride + (q - (r + 1)) * stride
          = ti0 + ((r + 1) + (q - (r + 1))) * stride by ring,
          show (r + 1) + (q - (r + 1)) = q by omega]
      have e1 : t2C[ti0 + q * stride]? = t2B[ti0 + q * stride]? :=
        huntouchC _ (fun j hj2 hc => by
          have hc2 : ti0 + q * stride = ti0 + ((r + 1) + cntB + j) * stride := by
            rw [hc]; ring
          have := line_pos_inj hst hc2
          omega)
      have e2 := htouchB (q - (r + 1)) hj
      rw [hpos, hlenA] at e2
      rw [e1, e2, hXc]
    · -- len - r ≤ q < len: written by loop 3
      have hj : q - ((r + 1) + cntB) < r := by omega
      have hpos : ti0 + (r + 1) * stride + cntB * stride
            + (q - ((r + 1) + cntB)) * stride = ti0 + q * stride := by
        rw [show ti0 + (r + 1) * stride + cntB * stride
            + (q - ((r + 1) + cntB)) * stride
          = ti0 + ((r + 1) + cntB + (q - ((r + 1) + cntB))) * stride by ring,
          show (r + 1) + cntB + (q - ((r + 1) + cntB)) = q by omega]
      have e1 := htouchC (q - ((r + 1) + cntB)) hj
      rw [hpos, hlenB, hlenA] at e1
      rw [e1, hXc]
  · intro p hp
    rw [hline]
    rw [huntouchC p (fun j hj hc => by
        have hq := hp ((r + 1) + cntB + j) (by omega)
        apply hq
        rw [hc]; ring),
      huntouchB p (fun j hj hc => by
        have hq := hp ((r + 1) + j) (by omega)
        apply hq
        rw [hc]; ring),
      huntouchA p (fun j hj hc => by
        have hq := hp j (by omega)
        apply hq
        rw [hc])]

theorem boxBlurH_const (s : Buf) (c : ℚ) (w r : ℕ) (hw : 0 < w) (hr : 2 * r + 1 ≤ w)
    (hs : ∀ p, p < s.length → jsRead s p = some c) :
    ∀ (h : ℕ) (t : Buf), h * w ≤ s.length →
      (∀ p, p < h * w → (boxBlurH s t w h r)[p]?
          = if p < t.length then some (some c) else none)
      ∧ (∀ p, h * w ≤ p → (boxBlurH s t w h r)[p]? = t[p]?) := by
  intro h
  unfold boxBlurH
  induction h with
  | zero =>
    intro t _
    exact ⟨fun p hp => by omega, fun p _ => rfl⟩
  | succ m ih =>
    intro t hlen
    have hmw : (m + 1) * w = m * w + w := by ring
    obtain ⟨ihT, ihU⟩ := ih t (by omega)
    obtain ⟨lineT, lineU⟩ :=
      blurLine_const s c 1 w r (by norm_num) hr
        ((List.range m).foldl (fun tb i => blurLine s 1 w r tb (i * w)) t) (m * w)
        (fun q hq => by
          have : m * w + q * 1 < s.length := by omega
          have h2 := hs (m * w + q * 1) this
          exact h2)
    rw [List.range_succ, List.foldl_append]
    simp only [List.foldl_cons, List.foldl_nil]
    have hfoldlen :
        ((List.range m).foldl (fun tb i => blurLine s 1 w r tb (i * w)) t).length
          = t.length :=
      foldl_length_pres _ (fun tb i => blurLine_length s 1 w r tb (i * w)) _ _
    constructor
    · intro p hp
      rcases Nat.lt_or_ge p (m * w) with hpm | hpm
      · rw [lineU p (fun q hq hc => by omega), ihT p hpm]
      · have hq : p - m * w < w := by omega
        have hpos : m * w + (p - m * w) * 1 = p := by omega
        have := lineT (p - m * w) hq
        rw [hpos, hfoldlen] at this
        exact this
    · intro p hp
      rw [lineU p (fun q hq hc => by omega), ihU p (by omega)]

theorem boxBlurV_const_aux (s : Buf) (c : ℚ) (w h r : ℕ) (hw : 0 < w)
    (hr : 2 * r + 1 ≤ h)
    (hs : ∀ p, p < s.length → jsRead s p = some c) (hsl : w * h ≤ s.length) :
    ∀ (cols : ℕ) (t : Buf), cols ≤ w →
      (∀ p, p < w * h → p % w < cols →
        ((List.range cols).foldl (fun tb i => blurLine s w h r tb i) t)[p]?
          = if p < t.length then some (some c) else none)
      ∧ (∀ p, w * h ≤ p ∨ cols ≤ p % w →
        ((List.range cols).foldl (fun tb i => blurLine s w h r tb i) t)[p]? = t[p]?) := by
  intro cols
  induction cols with
  | zero =>
    intro t _
    exact ⟨fun p _ hp => by omega, fun p _ => rfl⟩
  | succ m ih =>
    intro t hcols
    obtain ⟨ihT, ihU⟩ := ih t (by omega)
    have hline_in : ∀ q, q < h → m + q * w < s.length := by
      intro q hq
      have h2 : (q + 1) * w ≤ h * w := Nat.mul_le_mul_right w (by omega)
      have h3 : (q + 1) * w = q * w + w := by ring
      have h4 : h * w = w * h := by ring
      omega
    obtain ⟨lineT, lineU⟩ :=
      blurLine_const s c w h r hw hr
        ((List.range m).foldl (fun tb i => blurLine s w h r tb i) t) m
        (fun q hq => hs (m + q * w) (hline_in q hq))
    rw [List.range_succ, List.foldl_append]
    simp only [List.foldl_cons, List.foldl_nil]
    have hfoldlen :
        ((List.range m).foldl (fun tb i => blurLine s w h r tb i) t).length
          = t.length :=
      foldl_length_pres _ (fun tb i => blurLine_length s w h r tb i) _ _
    have hmod : ∀ q : ℕ, (m + q * w) % w = m := by
      intro q
      rw [Nat.add_mul_mod_self_right, Nat.mod_eq_of_lt (by omega)]
    constructor
    · intro p hpwh hpm
      rcases Nat.lt_or_ge (p % w) m with hc | hc
      · rw [lineU p (fun q hq hc2 => by
          rw [hc2, hmod q] at hc
          omega), ihT p hpwh hc]
      · have hpmod : p % w = m := by omega
        have hq : p / w < h := (Nat.div_lt_iff_lt_mul hw).mpr (by
          have hhw : h * w = w * h := by ring
          omega)
        have hpos : m + (p / w) * w = p := by
          have h5 := Nat.mod_add_div p w
          have h6 : w * (p / w) = (p / w) * w := by ring
          omega
        have := lineT (p / w) hq
        rw [hpos, hfoldlen] at this
        exact this
    · intro p hp
      have hnot : ∀ q, q < h → p ≠ m + q * w := by
        intro q hq hc
        rcases hp with hp | hp
        · have h2 : (q + 1) * w ≤ h * w := Nat.mul_le_mul_right w (by omega)
          have h3 : (q + 1) * w = q * w + w := by ring
          have h4 : h * w = w * h := by ring
          omega
        · rw [hc, hmod q] at hp
          omega
      rw [lineU p hnot]
      refine ihU p ?_
      rcases hp with hp | hp
      · exact Or.inl hp
      · exact Or.inr (by omega)

theorem boxBlurV_const (s : Buf) (c : ℚ) (w h r : ℕ) (hw : 0 < w)
    (hr : 2 * r + 1 ≤ h)
    (hs : ∀ p, p < s.length → jsRead s p = some c) (hsl : w * h ≤ s.length)
    (t : Buf) :
    (∀ p, p < w * h → (boxBlurV s t w h r)[p]?
        = if p < t.length then some (some c) else none)
    ∧ (∀ p, w * h ≤ p → (boxBlurV s t w h r)[p]? = t[p]?) := by
  obtain ⟨hT, hU⟩ := boxBlurV_const_aux s c w h r hw hr hs hsl w t (le_refl w)
  exact ⟨fun p hp => hT p hp (Nat.mod_lt p hw),
    fun p hp => hU p (Or.inl hp)⟩

theorem getElem?_replicate_const (n : ℕ) (c : ℚ) (p : ℕ) :
    (List.replicate n (some c) : Buf)[p]? = if p < n then some (some c) else none := by
  rw [List.getElem?_replicate]

theorem boxBlur_const (c : ℚ) (w h r : ℕ) (hw : 0 < w) (hh : 0 < h)
    (hr1 : 2 * r + 1 ≤ w) (hr2 : 2 * r + 1 ≤ h) (t : Buf)
    (ht : t.length = w * h) :
    boxBlur (List.replicate (w * h) (some c)) t w h r
      = (List.replicate (w * h) (some c), List.replicate (w * h) (some c)) := by
  have hslen : (List.replicate (w * h) (some c) : Buf).length = w * h :=
    List.length_replicate _ _
  have hsread : ∀ p, p < (List.replicate (w * h) (some c) : Buf).length →
      jsRead (List.replicate (w * h) (some c)) p = some c := by
    intro p hp
    exact jsRead_replicate _ c p (by omega)
  have hhw : h * w = w * h := Nat.mul_comm h w
  have hcopy : copyInto (List.replicate (w * h) (some c)) t
      = List.replicate (w * h) (some c) :=
    copyInto_eq _ t (by omega)
  have hH := boxBlurH_const (List.replicate (w * h) (some c)) c w r hw hr1 hsread h
    (List.replicate (w * h) (some c)) (by omega)
  have hHeq : boxBlurH (List.replicate (w * h) (some c))
      (List.replicate (w * h) (some c)) w h r = List.replicate (w * h) (some c) := by
    apply List.ext_getElem?
    intro p
    rcases Nat.lt_or_ge p (w * h) with hp | hp
    · rw [hH.1 p (by omega), getElem?_replicate_const, if_pos (by omega),
        if_pos hp]
    · rw [hH.2 p (by omega)]
  have hV := boxBlurV_const (List.replicate (w * h) (some c)) c w h r hw hr2 hsread
    (by omega) (List.replicate (w * h) (some c))
  have hVeq : boxBlurV (List.replicate (w * h) (some c))
      (List.replicate (w * h) (some c)) w h r = List.replicate (w * h) (some c) := by
    apply List.ext_getElem?
    intro p
    rcases Nat.lt_or_ge p (w * h) with hp | hp
    · rw [hV.1 p hp, getElem?_replicate_const, if_pos (by omega), if_pos hp]
    · rw [hV.2 p hp]
  unfold boxBlur
  dsimp only
  rw [hcopy, hHeq, hVeq]

theorem boxesForGauss_length (sigma : ℚ) (n : ℕ) :
    (boxesForGauss sigma n).length = n := by
  unfold boxesForGauss
  dsimp only
  rw [List.length_map, List.length_range]

theorem gaussFold_fixed (c : ℚ) (w h : ℕ) (hw : 0 < w) (hh : 0 < h)
    (boxes : List ℤ) :
    ∀ (il : List ℕ),
      (∀ i ∈ il, 2 * boxRadius (boxes.getD i 0) + 1 ≤ w
        ∧ 2 * boxRadius (boxes.getD i 0) + 1 ≤ h) →
      il.foldl (fun st i => boxBlur st.1 st.2 w h (boxRadius (boxes.getD i 0)))
          (List.replicate (w * h) (some c), List.replicate (w * h) (some c))
        = (List.replicate (w * h) (some c), List.replicate (w * h) (some c)) := by
  intro il
  induction il with
  | nil => intro _; rfl
  | cons i rest ih =>
    intro hcond
    rw [List.foldl_cons]
    have hstep := boxBlur_const c w h (boxRadius (boxes.getD i 0)) hw hh
      (hcond i (List.mem_cons_self i rest)).1 (hcond i (List.mem_cons_self i rest)).2
      (List.replicate (w * h) (some c)) (List.length_replicate _ _)
    rw [hstep]
    exact ih (fun j hj => hcond j (List.mem_cons_of_mem i hj))

theorem gaussFold_first (c : ℚ) (w h : ℕ) (hw : 0 < w) (hh : 0 < h)
    (boxes : List ℤ) (i : ℕ) (rest : List ℕ) (X : Buf) (hX : X.length = w * h)
    (hcond : ∀ j ∈ i :: rest, 2 * boxRadius (boxes.getD j 0) + 1 ≤ w
      ∧ 2 * boxRadius (boxes.getD j 0) + 1 ≤ h) :
    (i :: rest).foldl
        (fun st j => boxBlur st.1 st.2 w h (boxRadius (boxes.getD j 0)))
        (List.replicate (w * h) (some c), X)
      = (List.replicate (w * h) (some c), List.replicate (w * h) (some c)) := by
  rw [List.foldl_cons]
  have hstep := boxBlur_const c w h (boxRadius (boxes.getD i 0)) hw hh
    (hcond i (List.mem_cons_self i rest)).1 (hcond i (List.mem_cons_self i rest)).2
    X hX
  rw [hstep]
  exact gaussFold_fixed c w h hw hh boxes rest
    (fun j hj => hcond j (List.mem_cons_of_mem i hj))

/-- Claim C8 (amended): for a constant field, `gaussianBoxBlur` returns the
constant provided each approximating box fits the field: every box size `b`
in `boxesForGauss radius boxCount` must have its half-width `r = (b-1)/2`
satisfy `2r + 1 ≤ w` and `2r + 1 ≤ h`.  (Boxes wider than the field make the
sliding-window loops read out of bounds, which yields `undefined`/NaN —
see the counterexample.) -/
theorem gaussianBoxBlur_const_preserved (c : ℚ) (w h : ℕ) (radius : ℚ)
    (boxCount : ℕ) (hn : 0 < boxCount)
    (hbox : ∀ b ∈ boxesForGauss radius boxCount,
      2 * boxRadius b + 1 ≤ w ∧ 2 * boxRadius b + 1 ≤ h) :
    (gaussianBoxBlur (List.replicate (w * h) (some c)) w h radius boxCount).2
      = List.replicate (w * h) (some c) := by
  have hblen : (boxesForGauss radius boxCount).length = boxCount :=
    boxesForGauss_length radius boxCount
  have hmem : ∀ i, i < boxCount →
      (boxesForGauss radius boxCount).getD i 0 ∈ boxesForGauss radius boxCount := by
    intro i hi
    rw [List.getD_eq_getElem _ _ (by omega)]
    exact List.getElem_mem _
  have hw : 0 < w := by
    obtain ⟨b0, hb0⟩ : ∃ b0, b0 ∈ boxesForGauss radius boxCount := by
      have := hmem 0 hn
      exact ⟨_, this⟩
    have := (hbox b0 hb0).1
    omega
  have hh : 0 < h := by
    obtain ⟨b0, hb0⟩ : ∃ b0, b0 ∈ boxesForGauss radius boxCount := ⟨_, hmem 0 hn⟩
    have := (hbox b0 hb0).2
    omega
  unfold gaussianBoxBlur
  dsimp only
  rw [List.length_replicate]
  obtain ⟨m, hm⟩ : ∃ m, boxCount = m + 1 := ⟨boxCount - 1, by omega⟩
  subst hm
  rw [List.range_succ]
  have hcond : ∀ j ∈ (List.range m) ++ [m],
      2 * boxRadius ((boxesForGauss radius (m + 1)).getD j 0) + 1 ≤ w
      ∧ 2 * boxRadius ((boxesForGauss radius (m + 1)).getD j 0) + 1 ≤ h := by
    intro j hj
    have hjlt : j < m + 1 := by
      rcases List.mem_append.mp hj with hj | hj
      · have := List.mem_range.mp hj
        omega
      · simp at hj
        omega
    exact hbox _ (hmem j hjlt)
  cases hrange : List.range m with
  | nil =>
    rw [hrange] at hcond
    rw [List.nil_append,
      gaussFold_first c w h hw hh (boxesForGauss radius (m + 1)) m []
        (List.replicate (w * h) (some 0)) (List.length_replicate _ _)
        (by simpa using hcond)]
  | cons i rest =>
    rw [hrange] at hcond
    rw [List.cons_append,
      gaussFold_first c w h hw hh (boxesForGauss radius (m + 1)) i
        (rest ++ [m]) (List.replicate (w * h) (some 0)) (List.length_replicate _ _)
        (by
          intro j hj
          apply hcond
          simpa using hj)]

theorem nat_sqrt_eq (n q : ℕ) (h1 : q * q ≤ n) (h2 : n < (q + 1) * (q + 1)) :
    Nat.sqrt n = q :=
  le_antisymm (Nat.lt_succ_iff.mp (Nat.sqrt_lt.mpr h2)) (Nat.le_sqrt.mpr h1)

/-- `boxesForGauss(1, 1)` computes a single box of width 3 (half-width 1):
`wIdeal = √13`, `wl = 3`, `mIdeal = 3/4`, `m = round(3/4) = 1`. -/
theorem boxesForGauss_one_one : boxesForGauss 1 1 = [3] := by
  have hfl : ⌊(12 * (1 : ℚ) * 1 / ((1 : ℕ) : ℚ) + 1)⌋ = 13 := by norm_num
  have hsq : sqrtFloor (12 * (1 : ℚ) * 1 / ((1 : ℕ) : ℚ) + 1) = 3 := by
    unfold sqrtFloor
    rw [hfl, show (13 : ℤ).toNat = 13 from rfl,
      nat_sqrt_eq 13 3 (by norm_num) (by norm_num)]
    rfl
  unfold boxesForGauss
  rw [hsq]
  norm_num [List.range_succ, toInt16, jsRound]

/-- Claim C8 (counterexample): on a 1×1 constant field with radius 1 and a
single box pass, the box half-width is 1 but the row is 1 wide, so the
sliding-window loop reads `scl[1]` — out of bounds, `undefined` — and the
output sample is NaN (`none`), not the constant `0`. -/
theorem gaussianBoxBlur_const_counterexample :
    (gaussianBoxBlur [some 0] 1 1 1 1).2 ≠ [some 0] := by
  unfold gaussianBoxBlur
  rw [boxesForGauss_one_one]
  intro hc
  rw [show ([some (0 : ℚ)] : Buf).length = 1 from rfl] at hc
  simp only [List.range_succ, List.range_zero, List.nil_append, List.foldl_cons,
    List.foldl_nil, List.replicate, List.getD_cons_zero] at hc
  rw [show boxRadius 3 = 1 from rfl] at hc
  simp only [boxBlur, copyInto, boxBlurH, boxBlurV] at hc
  simp only [List.length_cons, List.length_nil, List.range_succ, List.range_zero,
    List.nil_append, List.foldl_cons, List.foldl_nil] at hc
  simp only [jsRead, List.getElem?_cons_zero, Option.getD_some,
    List.set_cons_zero] at hc
  simp only [blurLine, sumReads, blurLoopA, blurLoopB, blurLoopC] at hc
  norm_num [jsRead, jsAdd, jsSub, jsMul] at hc
  exact Option.noConfusion hc

theorem gaussianBoxBlur_const_preserved_witness :
    (gaussianBoxBlur (List.replicate (3 * 3) (some 7)) 3 3 1 1).2
      = List.replicate (3 * 3) (some 7) :=
  gaussianBoxBlur_const_preserved 7 3 3 1 1 (by norm_num)
    (by
      rw [boxesForGauss_one_one]
      intro b hb
      rw [List.mem_singleton] at hb
      subst hb
      exact ⟨by norm_num [boxRadius], by norm_num [boxRadius]⟩)

/-! ### Radius-0 identity behaviour of the blur -/

theorem blurLoopB_id (l : List ℚ) (stride : ℕ) (hst : 0 < stride) :
    ∀ (cnt : ℕ) (t : Buf) (li : ℕ) (a : ℚ),
      l[li]? = some a →
      (∀ j, j < cnt → li + (j + 1) * stride < l.length) →
      ((blurLoopB (l.map some) 1 stride cnt
          (t, some a, li + stride, li, li + stride)).1.length = t.length)
      ∧ (∀ j, j < cnt →
          (blurLoopB (l.map some) 1 stride cnt
            (t, some a, li + stride, li, li + stride)).1[li + (j + 1) * stride]?
          = if li + (j + 1) * stride < t.length
            then (l[li + (j + 1) * stride]?).map some else none)
      ∧ (∀ p, (∀ j, j < cnt → p ≠ li + (j + 1) * stride) →
          (blurLoopB (l.map some) 1 stride cnt
            (t, some a, li + stride, li, li + stride)).1[p]? = t[p]?) := by
  intro cnt
  induction cnt with
  | zero =>
    intro t li a _ _
    exact ⟨rfl, fun j hj => by omega, fun p _ => rfl⟩
  | succ m ih =>
    intro t li a ha hread
    have hb0 : li + 1 * stride < l.length := hread 0 (by omega)
    rw [one_mul] at hb0
    obtain ⟨b, hb⟩ : ∃ b, l[li + stride]? = some b :=
      ⟨l[li + stride], List.getElem?_eq_getElem hb0⟩
    have hstep : blurLoopB (l.map some) 1 stride (m + 1)
        (t, some a, li + stride, li, li + stride)
        = blurLoopB (l.map some) 1 stride m
          (t.set (li + stride) (some b), some b,
           li + stride + stride, li + stride, li + stride + stride) := by
      rw [blurLoopB]
      rw [jsRead_map_some, jsRead_map_some, ha, hb, jsSub_some, jsAdd_some,
        show a + (b - a) = b by ring, jsMul_some, mul_one]
    obtain ⟨ihL, ihT, ihU⟩ :=
      ih (t.set (li + stride) (some b)) (li + stride) b hb
        (fun j hj => by
          have := hread (j + 1) (by omega)
          rwa [show li + (j + 1 + 1) * stride = li + stride + (j + 1) * stride
            by ring] at this)
    refine ⟨?_, ?_, ?_⟩
    · rw [hstep, ihL, List.length_set]
    · intro j hj
      cases j with
      | zero =>
        rw [hstep]
        simp only [Nat.zero_add, one_mul]
        rw [ihU (li + stride) (fun j2 hj2 hc => by
          have : 0 < (j2 + 1) * stride := by positivity
          omega)]
        rw [set_getElem?, hb]
        by_cases hlt : li + stride < t.length
        · rw [if_pos ⟨rfl, hlt⟩, if_pos hlt]
          rfl
        · rw [if_neg (fun hc => hlt hc.2), if_neg hlt,
            List.getElem?_eq_none (by omega)]
      | succ k =>
        rw [hstep,
          show li + (k + 1 + 1) * stride = li + stride + (k + 1) * stride by ring,
          ihT k (by omega), List.length_set]
    · intro p hp
      rw [hstep, ihU p (fun j hj hc => by
        have := hp (j + 1) (by omega)
        apply this
        rw [hc]; ring)]
      rw [set_getElem?, if_neg (fun hc => by
        have := hp 0 (by omega)
        simp only [Nat.zero_add, one_mul] at this
        exact this hc.1.symm)]

/-- A radius-0 blur line over an all-finite source copies the source values at
every line position and touches nothing else. -/
theorem blurLine_id (l : List ℚ) (stride len : ℕ) (hst : 0 < stride)
    (hlen : 0 < len) (t : Buf) (ti0 : ℕ)
    (hin : ∀ q, q < len → ti0 + q * stride < l.length) :
    (∀ q, q < len → (blurLine (l.map some) stride len 0 t ti0)[ti0 + q * stride]?
        = if ti0 + q * stride < t.length
          then (l[ti0 + q * stride]?).map some else none)
    ∧ (∀ p, (∀ q, q < len → p ≠ ti0 + q * stride) →
        (blurLine (l.map some) stride len 0 t ti0)[p]? = t[p]?) := by
  have hin0 : ti0 < l.length := by
    have := hin 0 hlen
    omega
  obtain ⟨a, ha⟩ : ∃ a, l[ti0]? = some a := ⟨l[ti0], List.getElem?_eq_getElem hin0⟩
  have hkey : blurLine (l.map some) stride len 0 t ti0
      = (blurLoopB (l.map some) 1 stride (len - 1)
          (t.set ti0 (some a), some a, ti0 + stride, ti0, ti0 + stride)).1 := by
    unfold blurLine
    dsimp only
    simp only [sumReads, Nat.cast_zero, zero_add, mul_zero, add_zero, div_one,
      Nat.mul_zero, Nat.zero_add, Nat.add_zero]
    rw [jsRead_map_some l ti0, ha, jsMul_some, one_mul]
    rw [show blurLoopA (l.map some) (some a) 1 stride 1 (t, some a, ti0, ti0)
        = (t.set ti0 (jsMul (jsAdd (some a) (jsSub (jsRead (l.map some) ti0)
              (some a))) (some 1)),
           jsAdd (some a) (jsSub (jsRead (l.map some) ti0) (some a)),
           ti0 + stride, ti0 + stride) from rfl]
    rw [jsRead_map_some l ti0, ha, jsSub_some, jsAdd_some,
      show a + (a - a) = a by ring, jsMul_some, mul_one]
    rfl
  obtain ⟨ihL, ihT, ihU⟩ :=
    blurLoopB_id l stride hst (len - 1) (t.set ti0 (some a)) ti0 a ha
      (fun j hj => hin (j + 1) (by omega))
  constructor
  · intro q hq
    cases q with
    | zero =>
      rw [hkey]
      simp only [Nat.zero_mul, Nat.add_zero]
      rw [ihU ti0 (fun j hj hc => by
        have : 0 < (j + 1) * stride := by positivity
        omega)]
      rw [set_getElem?, ha]
      by_cases hlt : ti0 < t.length
      · rw [if_pos ⟨rfl, hlt⟩, if_pos hlt]
        rfl
      · rw [if_neg (fun hc => hlt hc.2), if_neg hlt,
          List.getElem?_eq_none (by omega)]
    | succ k =>
      rw [hkey, ihT k (by omega), List.length_set]
  · intro p hp
    rw [hkey, ihU p (fun j hj hc => hp (j + 1) (by omega) hc)]
    rw [set_getElem?, if_neg (fun hc => by
      have := hp 0 hlen
      rw [Nat.zero_mul, Nat.add_zero] at this
      exact this hc.1.symm)]

theorem boxBlurH_id (l : List ℚ) (w : ℕ) (hw : 0 < w) :
    ∀ (h : ℕ) (t : Buf), h * w ≤ l.length →
      (∀ p, p < h * w → (boxBlurH (l.map some) t w h 0)[p]?
          = if p < t.length then (l[p]?).map some else none)
      ∧ (∀ p, h * w ≤ p → (boxBlurH (l.map some) t w h 0)[p]? = t[p]?) := by
  intro h
  unfold boxBlurH
  induction h with
  | zero =>
    intro t _
    exact ⟨fun p hp => by omega, fun p _ => rfl⟩
  | succ m ih =>
    intro t hlen
    have hmw : (m + 1) * w = m * w + w := by ring
    obtain ⟨ihT, ihU⟩ := ih t (by omega)
    obtain ⟨lineT, lineU⟩ :=
      blurLine_id l 1 w (by norm_num) hw
        ((List.range m).foldl (fun tb i => blurLine (l.map some) 1 w 0 tb (i * w)) t)
        (m * w) (fun q hq => by omega)
    rw [List.range_succ, List.foldl_append]
    simp only [List.foldl_cons, List.foldl_nil]
    have hfoldlen :
        ((List.range m).foldl (fun tb i => blurLine (l.map some) 1 w 0 tb (i * w))
          t).length = t.length :=
      foldl_length_pres _ (fun tb i => blurLine_length (l.map some) 1 w 0 tb (i * w)) _ _
    constructor
    · intro p hp
      rcases Nat.lt_or_ge p (m * w) with hpm | hpm
      · rw [lineU p (fun q hq hc => by omega), ihT p hpm]
      · have hq : p - m * w < w := by omega
        have hpos : m * w + (p - m * w) * 1 = p := by omega
        have hres := lineT (p - m * w) hq
        rw [hpos, hfoldlen] at hres
        exact hres
    · intro p hp
      rw [lineU p (fun q hq hc => by omega), ihU p (by omega)]

theorem boxBlurV_id_aux (l : List ℚ) (w h : ℕ) (hw : 0 < w) (hh : 0 < h)
    (hsl : w * h ≤ l.length) :
    ∀ (cols : ℕ) (t : Buf), cols ≤ w →
      (∀ p, p < w * h → p % w < cols →
        ((List.range cols).foldl (fun tb i => blurLine (l.map some) w h 0 tb i) t)[p]?
          = if p < t.length then (l[p]?).map some else none)
      ∧ (∀ p, w * h ≤ p ∨ cols ≤ p % w →
        ((List.range cols).foldl (fun tb i => blurLine (l.map some) w h 0 tb i) t)[p]?
          = t[p]?) := by
  intro cols
  induction cols with
  | zero =>
    intro t _
    exact ⟨fun p _ hp => by omega, fun p _ => rfl⟩
  | succ m ih =>
    intro t hcols
    obtain ⟨ihT, ihU⟩ := ih t (by omega)
    have hline_in : ∀ q, q < h → m + q * w < l.length := by
      intro q hq
      have h2 : (q + 1) * w ≤ h * w := Nat.mul_le_mul_right w (by omega)
      have h3 : (q + 1) * w = q * w + w := by ring
      have h4 : h * w = w * h := by ring
      omega
    obtain ⟨lineT, lineU⟩ :=
      blurLine_id l w h hw hh
        ((List.range m).foldl (fun tb i => blurLine (l.map some) w h 0 tb i) t) m
        hline_in
    rw [List.range_succ, List.foldl_append]
    simp only [List.foldl_cons, List.foldl_nil]
    have hfoldlen :
        ((List.range m).foldl (fun tb i => blurLine (l.map some) w h 0 tb i)
          t).length = t.length :=
      foldl_length_pres _ (fun tb i => blurLine_length (l.map some) w h 0 tb i) _ _
    have hmod : ∀ q : ℕ, (m + q * w) % w = m := by
      intro q
      rw [Nat.add_mul_mod_self_right, Nat.mod_eq_of_lt (by omega)]
    constructor
    · intro p hpwh hpm
      rcases Nat.lt_or_ge (p % w) m with hc | hc
      · rw [lineU p (fun q hq hc2 => by
          rw [hc2, hmod q] at hc
          omega), ihT p hpwh hc]
      · have hpmod : p % w = m := by omega
        have hq : p / w < h := (Nat.div_lt_iff_lt_mul hw).mpr (by
          have hhw : h * w = w * h := by ring
          omega)
        have hpos : m + (p / w) * w = p := by
          have h5 := Nat.mod_add_div p w
          have h6 : w * (p / w) = (p / w) * w := by ring
          omega
        have hres := lineT (p / w) hq
        rw [hpos, hfoldlen] at hres
        exact hres
    · intro p hp
      have hnot : ∀ q, q < h → p ≠ m + q * w := by
        intro q hq hc
        rcases hp with hp | hp
        · have h2 : (q + 1) * w ≤ h * w := Nat.mul_le_mul_right w (by omega)
          have h3 : (q + 1) * w = q * w + w := by ring
          have h4 : h * w = w * h := by ring
          omega
        · rw [hc, hmod q] at hp
          omega
      rw [lineU p hnot]
      refine ihU p ?_
      rcases hp with hp | hp
      · exact Or.inl hp
      · exact Or.inr (by omega)

theorem boxBlurV_id (l : List ℚ) (w h : ℕ) (hw : 0 < w) (hh : 0 < h)
    (hsl : w * h ≤ l.length) (t : Buf) :
    (∀ p, p < w * h → (boxBlurV (l.map some) t w h 0)[p]?
        = if p < t.length then (l[p]?).map some else none)
    ∧ (∀ p, w * h ≤ p → (boxBlurV (l.map some) t w h 0)[p]? = t[p]?) := by
  obtain ⟨hT, hU⟩ := boxBlurV_id_aux l w h hw hh hsl w t (le_refl w)
  exact ⟨fun p hp => hT p hp (Nat.mod_lt p hw),
    fun p hp => hU p (Or.inl hp)⟩

theorem boxBlur_id (l : List ℚ) (w h : ℕ) (hw : 0 < w) (hh : 0 < h)
    (hl : l.length = w * h) (t : Buf) (ht : t.length = w * h) :
    boxBlur (l.map some) t w h 0 = (l.map some, l.map some) := by
  have hhw : h * w = w * h := Nat.mul_comm h w
  have hmaplen : (l.map some : Buf).length = w * h := by
    rw [List.length_map, hl]
  have hcopy : copyInto (l.map some) t = l.map some :=
    copyInto_eq _ t (by omega)
  have hmap_none : ∀ p, w * h ≤ p → (l.map some : Buf)[p]? = none := by
    intro p hp
    exact List.getElem?_eq_none (by omega)
  have hmap_val : ∀ p, p < w * h → (l.map some : Buf)[p]? = (l[p]?).map some := by
    intro p hp
    rw [List.getElem?_map]
  have hH := boxBlurH_id l w hw h (l.map some) (by omega)
  have hHeq : boxBlurH (l.map some) (l.map some) w h 0 = l.map some := by
    apply List.ext_getElem?
    intro p
    rcases Nat.lt_or_ge p (w * h) with hp | hp
    · rw [hH.1 p (by omega), if_pos (by omega), hmap_val p hp]
    · rw [hH.2 p (by omega)]
  have hV := boxBlurV_id l w h hw hh (by omega) (l.map some)
  have hVeq : boxBlurV (l.map some) (l.map some) w h 0 = l.map some := by
    apply List.ext_getElem?
    intro p
    rcases Nat.lt_or_ge p (w * h) with hp | hp
    · rw [hV.1 p hp, if_pos (by omega), hmap_val p hp]
    · rw [hV.2 p hp]
  unfold boxBlur
  dsimp only
  rw [hcopy, hHeq, hVeq]

theorem jsRound_natCast (n : ℕ) : jsRound (n : ℚ) = n := by
  unfold jsRound
  rw [Int.floor_eq_iff]
  constructor
  · push_cast
    linarith
  · push_cast
    linarith

/-- `boxesForGauss(0, n)` yields only width-1 boxes: `wIdeal = √1 = 1`,
`wl = 1`, `mIdeal = -8n / -8 = n`, so every slot takes the lower width 1. -/
theorem boxesForGauss_zero (n : ℕ) : boxesForGauss 0 n = List.replicate n 1 := by
  have harg : 12 * (0 : ℚ) * 0 / ((n : ℕ) : ℚ) + 1 = 1 := by norm_num
  have hsq : sqrtFloor (12 * (0 : ℚ) * 0 / ((n : ℕ) : ℚ) + 1) = 1 := by
    unfold sqrtFloor
    rw [harg, Int.floor_one, show (1 : ℤ).toNat = 1 from rfl,
      nat_sqrt_eq 1 1 (by norm_num) (by norm_num)]
    rfl
  unfold boxesForGauss
  rw [hsq]
  dsimp only
  rw [if_neg (by decide : ¬(1 : ℤ) % 2 = 0)]
  have hmid : (12 * (0 : ℚ) * 0 - ((n : ℕ) : ℚ) * ((1 : ℤ) : ℚ) * ((1 : ℤ) : ℚ)
      - 4 * ((n : ℕ) : ℚ) * ((1 : ℤ) : ℚ) - 3 * ((n : ℕ) : ℚ))
      / (-4 * ((1 : ℤ) : ℚ) - 4) = ((n : ℕ) : ℚ) := by
    rw [div_eq_iff (by norm_num)]
    push_cast
    ring
  rw [hmid, jsRound_natCast]
  have hconst : ∀ i ∈ List.range n,
      toInt16 (if (i : ℤ) < (n : ℤ) then 1 else 1 + 2) = 1 := by
    intro i hi
    rw [if_pos (by exact_mod_cast List.mem_range.mp hi)]
    decide
  rw [List.map_congr_left hconst, List.map_const', List.length_range]

theorem gaussFoldId_fixed (l : List ℚ) (w h : ℕ) (hw : 0 < w) (hh : 0 < h)
    (hl : l.length = w * h) (boxes : List ℤ) :
    ∀ (il : List ℕ), (∀ i ∈ il, boxRadius (boxes.getD i 0) = 0) →
      il.foldl (fun st i => boxBlur st.1 st.2 w h (boxRadius (boxes.getD i 0)))
          (l.map some, l.map some)
        = (l.map some, l.map some) := by
  intro il
  induction il with
  | nil => intro _; rfl
  | cons i rest ih =>
    intro hcond
    rw [List.foldl_cons]
    have hmaplen : (l.map some : Buf).length = w * h := by
      rw [List.length_map, hl]
    rw [show (boxBlur ((l.map some : Buf), (l.map some : Buf)).1
        ((l.map some : Buf), (l.map some : Buf)).2 w h
        (boxRadius (boxes.getD i 0))) = (l.map some, l.map some) by
      rw [hcond i (List.mem_cons_self i rest)]
      exact boxBlur_id l w h hw hh hl (l.map some) hmaplen]
    exact ih (fun j hj => hcond j (List.mem_cons_of_mem i hj))

theorem gaussFoldId_first (l : List ℚ) (w h : ℕ) (hw : 0 < w) (hh : 0 < h)
    (hl : l.length = w * h) (boxes : List ℤ) (i : ℕ) (rest : List ℕ)
    (X : Buf) (hX : X.length = w * h)
    (hcond : ∀ j ∈ i :: rest, boxRadius (boxes.getD j 0) = 0) :
    (i :: rest).foldl
        (fun st j => boxBlur st.1 st.2 w h (boxRadius (boxes.getD j 0)))
        (l.map some, X)
      = (l.map some, l.map some) := by
  rw [List.foldl_cons]
  rw [show (boxBlur ((l.map some : Buf), X).1 ((l.map some : Buf), X).2 w h
      (boxRadius (boxes.getD i 0))) = (l.map some, l.map some) by
    rw [hcond i (List.mem_cons_self i rest)]
    exact boxBlur_id l w h hw hh hl X hX]
  exact gaussFoldId_fixed l w h hw hh hl boxes rest
    (fun j hj => hcond j (List.mem_cons_of_mem i hj))

/-- Claim C7 (confirmed): at radius 0, `boxesForGauss` yields only width-1
boxes, and `gaussianBoxBlur` returns the input unchanged: every output sample
equals the corresponding input sample, for every field of finite samples and
every `boxCount ≥ 1`. -/
theorem gaussianBoxBlur_radius_zero_id (l : List ℚ) (w h n : ℕ) (hn : 0 < n)
    (hw : 0 < w) (hh : 0 < h) (hl : l.length = w * h) :
    boxesForGauss 0 n = List.replicate n 1
    ∧ (gaussianBoxBlur (l.map some) w h 0 n).2 = l.map some := by
  refine ⟨boxesForGauss_zero n, ?_⟩
  have hrad : ∀ i ∈ List.range n, boxRadius ((boxesForGauss 0 n).getD i 0) = 0 := by
    intro i hi
    rw [boxesForGauss_zero n,
      List.getD_eq_getElem _ _ (by
        rw [List.length_replicate]
        exact List.mem_range.mp hi),
      List.getElem_replicate]
    rfl
  unfold gaussianBoxBlur
  dsimp only
  obtain ⟨m, hm⟩ : ∃ m, n = m + 1 := ⟨n - 1, by omega⟩
  subst hm
  rw [List.range_succ]
  have hXlen : (List.replicate (l.map some : Buf).length (some 0) : Buf).length
      = w * h := by
    rw [List.length_replicate, List.length_map, hl]
  cases hrange : List.range m with
  | nil =>
    rw [List.nil_append,
      gaussFoldId_first l w h hw hh hl (boxesForGauss 0 (m + 1)) m []
        (List.replicate (l.map some : Buf).length (some 0)) hXlen
        (by
          intro j hj
          apply hrad
          rw [List.mem_singleton] at hj
          subst hj
          exact List.mem_range.mpr (by omega))]
  | cons i rest =>
    rw [List.cons_append,
      gaussFoldId_first l w h hw hh hl (boxesForGauss 0 (m + 1)) i (rest ++ [m])
        (List.replicate (l.map some : Buf).length (some 0)) hXlen
        (by
          intro j hj
          apply hrad
          rw [show i :: (rest ++ [m]) = (i :: rest) ++ [m] from rfl] at hj
          rcases List.mem_append.mp hj with hj | hj
          · rw [← hrange] at hj
            have := List.mem_range.mp hj
            exact List.mem_range.mpr (by omega)
          · rw [List.mem_singleton] at hj
            subst hj
            exact List.mem_range.mpr (by omega))]

theorem gaussianBoxBlur_radius_zero_id_witness :
    boxesForGauss 0 3 = List.replicate 3 1
    ∧ (gaussianBoxBlur ([(1 : ℚ), 2, 3, 4].map some) 2 2 0 3).2
      = [(1 : ℚ), 2, 3, 4].map some :=
  gaussianBoxBlur_radius_zero_id [(1 : ℚ), 2, 3, 4] 2 2 3 (by norm_num)
    (by norm_num) (by norm_num) (by norm_num)

set_option maxHeartbeats 800000 in
theorem blurLine_ex_row0 :
    blurLine [some (0 : ℚ), some 6] 1 1 1 [some (0 : ℚ), some 6] 0
      = [some 2, none] := by
  unfold blurLine
  dsimp only
  simp only [sumReads, blurLoopA, blurLoopB, blurLoopC]
  simp only [jsRead, List.getElem?_cons_zero, List.getElem?_cons_succ,
    List.getElem?_nil, Option.getD_some, Option.getD_none, List.set_cons_zero,
    List.set_cons_succ, List.set_nil]
  norm_num [jsAdd, jsSub, jsMul]

set_option maxHeartbeats 800000 in
theorem blurLine_ex_row1 :
    blurLine [some (0 : ℚ), some 6] 1 1 1 [some (2 : ℚ), none] 1
      = [some 2, none] := by
  unfold blurLine
  dsimp only
  simp only [sumReads, blurLoopA, blurLoopB, blurLoopC]
  simp only [jsRead, List.getElem?_cons_zero, List.getElem?_cons_succ,
    List.getElem?_nil, Option.getD_some, Option.getD_none, List.set_cons_zero,
    List.set_cons_succ, List.set_nil]
  norm_num [jsAdd, jsSub, jsMul]

set_option maxHeartbeats 800000 in
theorem blurLine_ex_col0 :
    blurLine [some (2 : ℚ), none] 1 2 1 [some (0 : ℚ), some 6] 0
      = [none, none] := by
  unfold blurLine
  dsimp only
  simp only [sumReads, blurLoopA, blurLoopB, blurLoopC]
  simp only [jsRead, List.getElem?_cons_zero, List.getElem?_cons_succ,
    List.getElem?_nil, Option.getD_some, Option.getD_none, List.set_cons_zero,
    List.set_cons_succ, List.set_nil]
  norm_num [jsAdd, jsSub, jsMul]

/-- Full evaluation of `gaussianBoxBlur` on the 1×2 field `[0, 6]`, radius 1,
one box (width 3): the returned `src` holds the horizontal half `[2, NaN]` and
the returned `target` the vertical pass of that half, `[NaN, NaN]` (the box is
wider than the field, so edge reads run out of bounds — that is beside the
point here; what matters is that the three buffers are pairwise distinct). -/
theorem gaussianBoxBlur_ex :
    gaussianBoxBlur [some (0 : ℚ), some 6] 1 2 1 1
      = ([some 2, none], [none, none]) := by
  unfold gaussianBoxBlur
  dsimp only
  rw [boxesForGauss_one_one,
    show ([some (0 : ℚ), some 6] : Buf).length = 2 from rfl,
    show List.range 1 = [0] from rfl]
  simp only [List.foldl_cons, List.foldl_nil]
  rw [show ([(3 : ℤ)].getD 0 0) = 3 from rfl, show boxRadius 3 = 1 from rfl]
  unfold boxBlur
  dsimp only
  rw [show (List.replicate 2 (some (0 : ℚ)) : Buf) = [some 0, some 0] from rfl]
  rw [copyInto_eq _ _ (by rfl)]
  rw [show boxBlurH [some (0 : ℚ), some 6] [some (0 : ℚ), some 6] 1 2 1
      = [some 2, none] by
    unfold boxBlurH
    rw [show List.range 2 = [0, 1] from rfl]
    simp only [List.foldl_cons, List.foldl_nil]
    rw [show (0 * 1 : ℕ) = 0 from rfl, show (1 * 1 : ℕ) = 1 from rfl,
      blurLine_ex_row0, blurLine_ex_row1]]
  rw [show boxBlurV [some (2 : ℚ), none] [some (0 : ℚ), some 6] 1 2 1
      = [none, none] by
    unfold boxBlurV
    rw [show List.range 1 = [0] from rfl]
    simp only [List.foldl_cons, List.foldl_nil]
    rw [blurLine_ex_col0]]

/-- Claim C10 (confirmed, implicit frame effect): `boxBlur` writes the
horizontally blurred channel back into its `scl` argument — the first component
of the returned pair is exactly the output of `boxBlurH`, not the original
source and not the full horizontal-then-vertical result — and `gaussianBoxBlur`
with two passes feeds that first component (the horizontal half of pass 1)
into pass 2.  Concretely, on the 1×2 field `[0, 6]` with radius 1 and one
box, after the call `src` holds `[2, NaN]`: no longer the original samples,
and different from the full blur result returned in `target`. -/
theorem boxBlur_overwrites_src :
    (∀ (s t : Buf) (w h r : ℕ),
        (boxBlur s t w h r).1 = boxBlurH (copyInto s t) s w h r)
    ∧ (∀ (src : Buf) (w h : ℕ) (radius : ℚ),
        gaussianBoxBlur src w h radius 2
          = boxBlur
              (boxBlur src (List.replicate src.length (some 0)) w h
                (boxRadius ((boxesForGauss radius 2).getD 0 0))).1
              (boxBlur src (List.replicate src.length (some 0)) w h
                (boxRadius ((boxesForGauss radius 2).getD 0 0))).2
              w h (boxRadius ((boxesForGauss radius 2).getD 1 0)))
    ∧ (gaussianBoxBlur [some (0 : ℚ), some 6] 1 2 1 1).1
        ≠ [some (0 : ℚ), some 6]
    ∧ (gaussianBoxBlur [some (0 : ℚ), some 6] 1 2 1 1).1
        ≠ (gaussianBoxBlur [some (0 : ℚ), some 6] 1 2 1 1).2 := by
  refine ⟨fun s t w h r => rfl, fun src w h radius => ?_, ?_, ?_⟩
  · unfold gaussianBoxBlur
    dsimp only
    rw [show List.range 2 = [0, 1] from rfl]
    rfl
  · rw [gaussianBoxBlur_ex]
    intro hc
    norm_num at hc
  · rw [gaussianBoxBlur_ex]
    intro hc
    norm_num at hc
    exact Option.noConfusion hc

end ThreeTerrain
